import Mathlib

/-!
Verification development for the bulk-execution and rate-limiting core of the
repository (`cterasdk/bulk/operations.py`, `cterasdk/ratelimit/strategies.py`,
`cterasdk/ratelimit/manager.py`, `cterasdk/ratelimit/decorators.py`,
`cterasdk/exceptions/ratelimit.py`).

The Python code is shallowly embedded as executable Lean definitions:
  * operation identifiers, error messages and function names are modelled as
    naturals (the code only compares them and stores them),
  * an operation's callable together with its bound arguments is modelled by
    its outcome, `Except Nat Int` (`.ok v` = the call returns `v`,
    `.error e` = the call raises `e`),
  * a compensating callable is modelled by `Option Bool` (`none` = no rollback
    function was supplied; `some b` = supplied, and invoking it succeeds iff
    `b`),
  * Python float time and token amounts are modelled by `ℚ`,
  * Python object aliasing of `OperationResult` values (the same object is
    referenced from `operation.result` and from the returned results list, and
    is mutated in place by rollback) is modelled by a store `resultOf` indexed
    by an operation's position, with the returned list holding indices into
    that store,
  * the asyncio event loop of `execute_async` is modelled by its deterministic
    behaviour on non-suspending actions: tasks run to completion in submission
    order, and `asyncio.gather` returns one entry per task in task order.
-/

namespace CteraSDK

/-! ## `cterasdk/bulk/operations.py` -/

/-- `OperationStatus` enum from `bulk/operations.py`. -/
inductive OperationStatus where
  | pending
  | running
  | success
  | failed
  | rolledBack
deriving DecidableEq, Repr

/-- `OperationResult` from `bulk/operations.py` (the `timestamp` field is
irrelevant to every claim and omitted). -/
structure OperationResult where
  operation_id : Nat
  status : OperationStatus
  data : Option Int
  error : Option Nat
deriving DecidableEq, Repr

/-- `BulkOperation` descriptor: `operation_id`, the action (callable with its
bound arguments, modelled by its outcome) and the optional rollback callable
(modelled by whether invoking it succeeds).  The mutable `result` field lives
in the executor state (`resultOf`), mirroring Python object identity. -/
structure BulkOperation where
  operation_id : Nat
  action : Except Nat Int
  rollback_func : Option Bool
deriving Repr

/-- The store of `operation.result` fields, one slot per operation in
submission order; `none` models Python `None`. -/
abbrev ResultStore := List (Option OperationResult)

/-- In-place mutation `operation.result.status = st` performed by
`_rollback` / `_rollback_sync` on the operation at index `i`. -/
def updateStatus (ros : ResultStore) (i : Nat) (st : OperationStatus) : ResultStore :=
  match ros.get? i with
  | some (some r) => ros.set i (some { r with status := st })
  | _ => ros

/-- One step of the rollback loop body for the operation at index `i`:
invoke `rollback_func` when present (recording the invocation), and on its
success set the status to `rolledBack`; its failure is caught and ignored. -/
def rollbackStep (ops : List BulkOperation) (acc : ResultStore × List Nat) (i : Nat) :
    ResultStore × List Nat :=
  match ops.get? i with
  | some op =>
    match op.rollback_func with
    | none => acc
    | some true => (updateStatus acc.1 i .rolledBack, acc.2 ++ [i])
    | some false => (acc.1, acc.2 ++ [i])
  | none => acc

/-- `BulkOperationManager._rollback` / `._rollback_sync`: iterate the completed
operations in reverse completion order, invoking each present rollback
callable; a failing rollback is caught and does not abort the loop.  Returns
the updated result store and the invocation trace (indices, in invocation
order). -/
def rollbackPass (ops : List BulkOperation) (ros : ResultStore) (completed : List Nat) :
    ResultStore × List Nat :=
  completed.reverse.foldl (rollbackStep ops) (ros, [])

/-- Executor state for `execute_sync`. -/
structure SyncState where
  resultOf : ResultStore
  completed : List Nat
  resultsIdx : List Nat
  progressCalls : List (Nat × Nat)
  rollbackCalls : List Nat
deriving DecidableEq, Repr

/-- The loop body of `BulkOperationManager.execute_sync`, recursing over the
remaining operations with `i` the index of the next operation.  On success the
result is assigned, the operation appended to `completed_operations`, the
progress callback invoked with `(len(completed), len(operations))`, and the
result appended to `results`.  On failure the result is assigned; if rollback
is enabled, `_rollback_sync` runs and the loop breaks BEFORE the
`results.append` line; otherwise the failed result is appended and the loop
continues. -/
def execSyncGo (allOps : List BulkOperation) (enableRollback onProgress : Bool) :
    List BulkOperation → Nat → SyncState → SyncState
  | [], _, st => st
  | op :: rest, i, st =>
    match op.action with
    | .ok v =>
      let r : OperationResult := ⟨op.operation_id, .success, some v, none⟩
      let completed := st.completed ++ [i]
      let st' : SyncState :=
        { resultOf := st.resultOf.set i (some r)
          completed := completed
          resultsIdx := st.resultsIdx ++ [i]
          progressCalls :=
            if onProgress then st.progressCalls ++ [(completed.length, allOps.length)]
            else st.progressCalls
          rollbackCalls := st.rollbackCalls }
      execSyncGo allOps enableRollback onProgress rest (i + 1) st'
    | .error e =>
      let r : OperationResult := ⟨op.operation_id, .failed, none, some e⟩
      let ros := st.resultOf.set i (some r)
      if enableRollback then
        let rb := rollbackPass allOps ros st.completed
        { st with resultOf := rb.1, rollbackCalls := st.rollbackCalls ++ rb.2 }
      else
        let st' : SyncState :=
          { st with resultOf := ros, resultsIdx := st.resultsIdx ++ [i] }
        execSyncGo allOps enableRollback onProgress rest (i + 1) st'

/-- `BulkOperationManager.execute_sync` on a freshly-populated manager whose
operation list is `ops`. -/
def execSync (enableRollback onProgress : Bool) (ops : List BulkOperation) : SyncState :=
  execSyncGo ops enableRollback onProgress ops 0
    ⟨List.replicate ops.length none, [], [], [], []⟩

/-- The `results` list returned by `execute_sync`, materialised after all
in-place mutation: entry `j` is the (aliased) `OperationResult` object of the
operation whose index was appended `j`-th. -/
def syncResults (st : SyncState) : List (Option OperationResult) :=
  st.resultsIdx.map (fun i => (st.resultOf.get? i).join)

/-- An entry of the list returned by `asyncio.gather` in `execute_async`:
`_execute_single` returns `operation.result` (an alias into the store) on
success, and a fresh `OperationResult` (never assigned to the operation) on
failure. -/
inductive GatherItem where
  | aliased (i : Nat)
  | fresh (r : OperationResult)
deriving DecidableEq, Repr

/-- Executor state for `execute_async`. -/
structure AsyncState where
  resultOf : ResultStore
  completed : List Nat
  gather : List GatherItem
  progressCalls : List (Nat × Nat)
  rollbackCalls : List Nat
deriving DecidableEq, Repr

/-- `BulkOperationManager._execute_single` applied to each task in submission
order (the event-loop behaviour for non-suspending actions).  On success:
assign `operation.result`, append to `completed_operations`, invoke the
progress callback; on an exception: return a fresh Failed result, leaving
`operation.result` unassigned and invoking no callback. -/
def execAsyncGo (allOps : List BulkOperation) (onProgress : Bool) :
    List BulkOperation → Nat → AsyncState → AsyncState
  | [], _, st => st
  | op :: rest, i, st =>
    match op.action with
    | .ok v =>
      let r : OperationResult := ⟨op.operation_id, .success, some v, none⟩
      let completed := st.completed ++ [i]
      let st' : AsyncState :=
        { resultOf := st.resultOf.set i (some r)
          completed := completed
          gather := st.gather ++ [.aliased i]
          progressCalls :=
            if onProgress then st.progressCalls ++ [(completed.length, allOps.length)]
            else st.progressCalls
          rollbackCalls := st.rollbackCalls }
      execAsyncGo allOps onProgress rest (i + 1) st'
    | .error e =>
      let st' : AsyncState :=
        { st with gather := st.gather ++ [.fresh ⟨op.operation_id, .failed, none, some e⟩] }
      execAsyncGo allOps onProgress rest (i + 1) st'

/-- The status a gather entry currently exhibits (used by the
`failed_ops` filter in `execute_async`). -/
def gatherStatus (ros : ResultStore) : GatherItem → Option OperationStatus
  | .aliased i => ((ros.get? i).join).map (·.status)
  | .fresh r => some r.status

/-- `BulkOperationManager.execute_async`: run every task, then, when some
gathered result has status Failed and rollback is enabled, run `_rollback`
over the completed operations. -/
def execAsync (enableRollback onProgress : Bool) (ops : List BulkOperation) : AsyncState :=
  let st := execAsyncGo ops onProgress ops 0
    ⟨List.replicate ops.length none, [], [], [], []⟩
  let anyFailed := st.gather.any (fun g => gatherStatus st.resultOf g = some .failed)
  if anyFailed && enableRollback then
    let rb := rollbackPass ops st.resultOf st.completed
    { st with resultOf := rb.1, rollbackCalls := st.rollbackCalls ++ rb.2 }
  else st

/-- The list returned by `execute_async`, materialised after all in-place
mutation (aliased entries read the store; fresh entries are as returned). -/
def asyncResults (st : AsyncState) : List (Option OperationResult) :=
  st.gather.map (fun g =>
    match g with
    | .aliased i => (st.resultOf.get? i).join
    | .fresh r => some r)

/-- `BulkOperationManager.get_summary`: counts over `[op.result for op in
self.operations if op.result]` plus `len(self.completed_operations)`. -/
structure Summary where
  total : Nat
  completed : Nat
  success : Nat
  failed : Nat
  rolled_back : Nat
deriving DecidableEq, Repr

def get_summary (ops : List BulkOperation) (ros : ResultStore) (completedLen : Nat) :
    Summary :=
  let results := ros.filterMap id
  { total := ops.length
    completed := completedLen
    success := (results.filter (fun r => r.status = .success)).length
    failed := (results.filter (fun r => r.status = .failed)).length
    rolled_back := (results.filter (fun r => r.status = .rolledBack)).length }

/-- `BulkOperationManager.__init__`: stores its arguments with no
validation whatsoever. -/
structure BulkOperationManager where
  max_concurrent : Nat
  enable_rollback : Bool
deriving DecidableEq, Repr

def BulkOperationManager.mk' (max_concurrent : Nat) (enable_rollback : Bool) :
    BulkOperationManager :=
  { max_concurrent := max_concurrent, enable_rollback := enable_rollback }

/-! ## `cterasdk/ratelimit/strategies.py`

Each strategy is a structure holding exactly the Python instance attributes
(locks excluded: every claim concerns the state transitions inside the
critical section).  `time.time()` is ambient in the Python code; here each
time-reading operation takes the current time `now : ℚ` explicitly. -/

/-- Python `int(x)` applied to a float: truncation toward zero. -/
def pyInt (q : ℚ) : ℤ := if 0 ≤ q then ⌊q⌋ else -⌊-q⌋

/-- `FixedWindowStrategy` instance state. -/
structure FixedWindowStrategy where
  max_requests : Nat
  window_size : ℚ
  requests : List ℚ
deriving DecidableEq, Repr

namespace FixedWindowStrategy

/-- `FixedWindowStrategy.__init__`: stores its parameters unchecked, with an
empty request log. -/
def mk' (max_requests : Nat) (window_size : ℚ) : FixedWindowStrategy :=
  ⟨max_requests, window_size, []⟩

/-- `_cleanup_old_requests`: pop timestamps older than `now - window_size`
from the front of the deque. -/
def cleanup (s : FixedWindowStrategy) (now : ℚ) : FixedWindowStrategy :=
  { s with requests := s.requests.dropWhile (fun t => decide (t < now - s.window_size)) }

/-- `acquire` (the strategy-level `try_acquire`). -/
def acquire (s : FixedWindowStrategy) (now : ℚ) (tokens : Nat) :
    Bool × FixedWindowStrategy :=
  let s := s.cleanup now
  if s.requests.length + tokens ≤ s.max_requests then
    (true, { s with requests := s.requests ++ List.replicate tokens now })
  else (false, s)

/-- `wait_time`.  (`self.requests[0]` raises on an empty log, which is
reachable only when `max_requests = 0`; that branch is modelled as `0`.) -/
def wait_time (s : FixedWindowStrategy) (now : ℚ) : ℚ × FixedWindowStrategy :=
  let s := s.cleanup now
  if s.requests.length < s.max_requests then (0, s)
  else
    match s.requests.head? with
    | some oldest => (max 0 (oldest + s.window_size - now), s)
    | none => (0, s)

end FixedWindowStrategy

/-- `TokenBucketStrategy` instance state. -/
structure TokenBucketStrategy where
  rate : ℚ
  capacity : ℤ
  tokens : ℚ
  last_update : ℚ
deriving DecidableEq, Repr

namespace TokenBucketStrategy

/-- `TokenBucketStrategy.__init__`: stores its parameters unchecked; the
bucket starts full (`tokens = float(capacity)`), `last_update = time.time()`. -/
def mk' (rate : ℚ) (capacity : ℤ) (now : ℚ) : TokenBucketStrategy :=
  ⟨rate, capacity, (capacity : ℚ), now⟩

/-- `_refill`: `tokens = min(capacity, tokens + elapsed * rate)`. -/
def refill (s : TokenBucketStrategy) (now : ℚ) : TokenBucketStrategy :=
  { s with
    tokens := min (s.capacity : ℚ) (s.tokens + (now - s.last_update) * s.rate)
    last_update := now }

/-- `acquire` (the strategy-level `try_acquire`). -/
def acquire (s : TokenBucketStrategy) (now : ℚ) (tokens : Nat) :
    Bool × TokenBucketStrategy :=
  let s := s.refill now
  if (tokens : ℚ) ≤ s.tokens then (true, { s with tokens := s.tokens - tokens })
  else (false, s)

/-- `wait_time`. -/
def wait_time (s : TokenBucketStrategy) (now : ℚ) : ℚ × TokenBucketStrategy :=
  let s := s.refill now
  if 1 ≤ s.tokens then (0, s) else ((1 - s.tokens) / s.rate, s)

end TokenBucketStrategy

/-- `LeakyBucketStrategy` instance state. -/
structure LeakyBucketStrategy where
  rate : ℚ
  capacity : ℤ
  queue_size : ℤ
  last_leak : ℚ
deriving DecidableEq, Repr

namespace LeakyBucketStrategy

/-- `LeakyBucketStrategy.__init__`: stores its parameters unchecked, with an
empty queue. -/
def mk' (rate : ℚ) (capacity : ℤ) (now : ℚ) : LeakyBucketStrategy :=
  ⟨rate, capacity, 0, now⟩

/-- `_leak`: `leaked = int(elapsed * rate)`, `queue_size = max(0, queue_size -
leaked)`, and `last_leak` advances only when `leaked > 0`. -/
def leak (s : LeakyBucketStrategy) (now : ℚ) : LeakyBucketStrategy :=
  let leaked := pyInt ((now - s.last_leak) * s.rate)
  let s := { s with queue_size := max 0 (s.queue_size - leaked) }
  if 0 < leaked then { s with last_leak := now } else s

/-- `acquire` (the strategy-level `try_acquire`). -/
def acquire (s : LeakyBucketStrategy) (now : ℚ) (tokens : Nat) :
    Bool × LeakyBucketStrategy :=
  let s := s.leak now
  if s.queue_size + tokens ≤ s.capacity then
    (true, { s with queue_size := s.queue_size + tokens })
  else (false, s)

/-- `wait_time`. -/
def wait_time (s : LeakyBucketStrategy) (now : ℚ) : ℚ × LeakyBucketStrategy :=
  let s := s.leak now
  if s.queue_size < s.capacity then (0, s)
  else ((s.queue_size - s.capacity + 1 : ℤ) / s.rate, s)

end LeakyBucketStrategy

/-- `AdaptiveStrategy` instance state. -/
structure AdaptiveStrategy where
  min_rate : ℚ
  max_rate : ℚ
  current_rate : ℚ
  tokens : ℚ
  last_update : ℚ
  consecutive_successes : Nat
  consecutive_failures : Nat
deriving DecidableEq, Repr

namespace AdaptiveStrategy

/-- `AdaptiveStrategy.__init__`: stores its parameters unchecked, one logical
token available. -/
def mk' (initial_rate min_rate max_rate : ℚ) (now : ℚ) : AdaptiveStrategy :=
  ⟨min_rate, max_rate, initial_rate, 1, now, 0, 0⟩

/-- `_refill`: `tokens = min(1.0, tokens + elapsed * current_rate)`. -/
def refill (s : AdaptiveStrategy) (now : ℚ) : AdaptiveStrategy :=
  { s with
    tokens := min 1 (s.tokens + (now - s.last_update) * s.current_rate)
    last_update := now }

/-- `acquire` (the strategy-level `try_acquire`). -/
def acquire (s : AdaptiveStrategy) (now : ℚ) (tokens : Nat) :
    Bool × AdaptiveStrategy :=
  let s := s.refill now
  if (tokens : ℚ) ≤ s.tokens then (true, { s with tokens := s.tokens - tokens })
  else (false, s)

/-- `wait_time`. -/
def wait_time (s : AdaptiveStrategy) (now : ℚ) : ℚ × AdaptiveStrategy :=
  let s := s.refill now
  if 1 ≤ s.tokens then (0, s) else ((1 - s.tokens) / s.current_rate, s)

/-- `on_success`: bump the success streak; after 10 consecutive successes
multiply `current_rate` by 1.1 capped at `max_rate` and reset the streak. -/
def on_success (s : AdaptiveStrategy) : AdaptiveStrategy :=
  let s := { s with
    consecutive_successes := s.consecutive_successes + 1
    consecutive_failures := 0 }
  if 10 ≤ s.consecutive_successes then
    { s with
      current_rate := min s.max_rate (s.current_rate * (11 / 10))
      consecutive_successes := 0 }
  else s

/-- `on_rate_limit`: halve `current_rate` floored at `min_rate`; when a truthy
`retry_after` is supplied (Python `if retry_after:` — `None` and `0.0` are
falsy), zero the tokens and set `last_update = time.time() + retry_after`. -/
def on_rate_limit (s : AdaptiveStrategy) (now : ℚ) (retry_after : Option ℚ) :
    AdaptiveStrategy :=
  let s := { s with
    consecutive_failures := s.consecutive_failures + 1
    consecutive_successes := 0
    current_rate := max s.min_rate (s.current_rate * (1 / 2)) }
  match retry_after with
  | some ra => if ra = 0 then s else { s with tokens := 0, last_update := now + ra }
  | none => s

end AdaptiveStrategy

/-! ## `cterasdk/ratelimit/manager.py` -/

/-- The `stats` dictionary of `RateLimitManager`. -/
structure RateLimitStats where
  total_requests : Nat
  throttled_requests : Nat
  total_wait_time : ℚ
deriving DecidableEq, Repr

/-- The strategy as `RateLimitManager.acquire` sees it: an opaque object with
`acquire` (try-acquire) and `wait_time` methods, both possibly mutating the
strategy state (ambient time and token count folded into `σ`). -/
structure StrategyOracle (σ : Type) where
  tryAcquire : σ → Bool × σ
  waitTime : σ → ℚ × σ

/-- Observable outcome of one `RateLimitManager.acquire` call: the returned
boolean, the final strategy state, the final stats, the trace of sleep
durations actually issued, and the number of `try_acquire` attempts made. -/
structure AcquireOutcome (σ : Type) where
  ok : Bool
  state : σ
  stats : RateLimitStats
  sleeps : List ℚ
  attempts : Nat

/-- The `for attempt in range(max_retries)` loop of `RateLimitManager.acquire`,
indexed by the number of remaining iterations (`r + 1` remaining means
`attempt = max_retries - r - 1`, so `attempt < max_retries - 1` iff `0 < r`).
On a failed attempt the throttled counter is bumped and `wait_time` computed;
the loop sleeps and retries only when the wait is positive AND this is not the
final iteration, otherwise it breaks and the call returns `False`. -/
def acquireLoop {σ : Type} (strat : StrategyOracle σ) :
    σ → RateLimitStats → Nat → AcquireOutcome σ
  | s, stats, 0 => ⟨false, s, stats, [], 0⟩
  | s, stats, r + 1 =>
    let a := strat.tryAcquire s
    if a.1 then ⟨true, a.2, stats, [], 1⟩
    else
      let stats1 := { stats with throttled_requests := stats.throttled_requests + 1 }
      let w := strat.waitTime a.2
      if 0 < w.1 ∧ 0 < r then
        let stats2 := { stats1 with total_wait_time := stats1.total_wait_time + w.1 }
        let out := acquireLoop strat w.2 stats2 r
        ⟨out.ok, out.state, out.stats, w.1 :: out.sleeps, out.attempts + 1⟩
      else ⟨false, w.2, stats1, [], 1⟩

namespace RateLimitManager

/-- `RateLimitManager.acquire`: bump `total_requests` once, then run the retry
loop; never raises (a total function). -/
def acquire {σ : Type} (strat : StrategyOracle σ) (s : σ) (stats : RateLimitStats)
    (max_retries : Nat) : AcquireOutcome σ :=
  acquireLoop strat s
    { stats with total_requests := stats.total_requests + 1 } max_retries

/-- Endpoints and registration keys, modelled as their character sequences. -/
abbrev Endpoint := List Char

/-- Python `endpoint.startswith(pattern)`. -/
def startsWithKey : Endpoint → Endpoint → Bool
  | _, [] => true
  | [], _ :: _ => false
  | c :: cs, p :: ps => c = p && startsWithKey cs ps

/-- `RateLimitManager.get_strategy`: exact dict-key match first, then the
first registered key (in registration order) that is a prefix of the endpoint,
else the default strategy. -/
def get_strategy {σ : Type} (endpoint_strategies : List (Endpoint × σ))
    (default_strategy : σ) (endpoint : Endpoint) : σ :=
  match endpoint_strategies.find? (fun p => decide (p.1 = endpoint)) with
  | some p => p.2
  | none =>
    match endpoint_strategies.find? (fun p => startsWithKey endpoint p.1) with
    | some p => p.2
    | none => default_strategy

end RateLimitManager

/-! ## `cterasdk/ratelimit/decorators.py` and `cterasdk/exceptions/ratelimit.py` -/

/-- The exceptions relevant to the wrapper: the generic Python `RuntimeError`
the decorator raises (its message interpolates only the function name), and
`RateLimitExceeded` from `exceptions/ratelimit.py` (which carries the endpoint
and the retry count). -/
inductive PyError where
  | runtimeError (funcName : Nat)
  | rateLimitExceeded (endpoint : Nat) (max_retries : Nat)
deriving DecidableEq, Repr

/-- The `sync_wrapper` loop of the `rate_limited` decorator: up to
`max_retries` try-acquire attempts; on success call the wrapped function and
return its value; on failure sleep for `wait_time` when it is positive and the
attempt is not the final one (but, unlike `RateLimitManager.acquire`, keep
looping either way); after the loop raise `RuntimeError` naming the function.
Returns the call result or the raised error, the final strategy state, and the
sleep trace. -/
def rateLimitedCall {σ α : Type} (strat : StrategyOracle σ) (funcName : Nat)
    (f : Unit → α) : σ → Nat → Except PyError α × σ × List ℚ
  | s, 0 => (.error (.runtimeError funcName), s, [])
  | s, r + 1 =>
    let a := strat.tryAcquire s
    if a.1 then (.ok (f ()), a.2, [])
    else
      let w := strat.waitTime a.2
      let sleeps := if 0 < w.1 ∧ 0 < r then [w.1] else []
      let out := rateLimitedCall strat funcName f w.2 r
      (out.1, out.2.1, sleeps ++ out.2.2)

/-- A strategy oracle that rejects every attempt, reports a zero wait time,
and counts how many `try_acquire` attempts were made against it. -/
def alwaysThrottledOracle : StrategyOracle Nat :=
  { tryAcquire := fun n => (false, n + 1), waitTime := fun n => (0, n) }

/-! ## Closed forms for the executor loops -/

/-- Whether the operation at index `i` has a rollback callable. -/
def hasRB (ops : List BulkOperation) (i : Nat) : Bool :=
  match ops.get? i with
  | some op => op.rollback_func.isSome
  | none => false

/-- The result store produced by executing `rest` (submission indices starting
at `i`): each successful action assigns its slot, each failing action leaves
its slot untouched (the concurrent path). -/
def storeOf : List BulkOperation → Nat → ResultStore → ResultStore
  | [], _, ros => ros
  | op :: rest, i, ros =>
    match op.action with
    | .ok v => storeOf rest (i + 1) (ros.set i (some ⟨op.operation_id, .success, some v, none⟩))
    | .error _ => storeOf rest (i + 1) ros

/-- The completion-order list of indices of successful operations. -/
def completedOf : List BulkOperation → Nat → List Nat
  | [], _ => []
  | op :: rest, i =>
    match op.action with
    | .ok _ => i :: completedOf rest (i + 1)
    | .error _ => completedOf rest (i + 1)

/-- The progress-callback trace: one `(completed_count, total)` entry per
successful operation, with `c` the completed count on entry. -/
def progressOf (total : Nat) : List BulkOperation → Nat → List (Nat × Nat)
  | [], _ => []
  | op :: rest, c =>
    match op.action with
    | .ok _ => (c + 1, total) :: progressOf total rest (c + 1)
    | .error _ => progressOf total rest c

/-- The `asyncio.gather` entries: an alias for each success, a fresh Failed
result for each failure. -/
def gatherOf : List BulkOperation → Nat → List GatherItem
  | [], _ => []
  | op :: rest, i =>
    (match op.action with
      | .ok _ => GatherItem.aliased i
      | .error e => GatherItem.fresh ⟨op.operation_id, .failed, none, some e⟩)
      :: gatherOf rest (i + 1)

/-- The result store produced by the sequential path with rollback disabled:
every executed operation assigns its slot (Success or Failed). -/
def storeAllOf : List BulkOperation → Nat → ResultStore → ResultStore
  | [], _, ros => ros
  | op :: rest, i, ros =>
    match op.action with
    | .ok v => storeAllOf rest (i + 1) (ros.set i (some ⟨op.operation_id, .success, some v, none⟩))
    | .error e => storeAllOf rest (i + 1) (ros.set i (some ⟨op.operation_id, .failed, none, some e⟩))

/-- The stored Failed result of the first failing operation (`rest.get? k`
must be that operation for this to be meaningful). -/
def failResOf (rest : List BulkOperation) (k : Nat) : Option OperationResult :=
  match rest.get? k with
  | some op =>
    match op.action with
    | .error e => some ⟨op.operation_id, .failed, none, some e⟩
    | .ok _ => none
  | none => none

/-- Identifier view of a materialised results list (keeps length, order and
presence). -/
def resultIds (l : List (Option OperationResult)) : List (Option Nat) :=
  l.map (Option.map (·.operation_id))

/-- The status currently stored in slot `j`. -/
def statusAt (ros : ResultStore) (j : Nat) : Option OperationStatus :=
  ((ros.get? j).join).map (·.status)

/-- The operation id currently stored in slot `j`. -/
def idAt (ros : ResultStore) (j : Nat) : Option Nat :=
  ((ros.get? j).join).map (·.operation_id)

/-- Number of operations whose action succeeds. -/
def countOk (ops : List BulkOperation) : Nat :=
  (ops.filter (fun op => op.action.isOk)).length

/-- Whether a wrapper outcome is the dedicated `RateLimitExceeded` error. -/
def isRateLimitExceededError {α : Type} : Except PyError α → Bool
  | .error (.rateLimitExceeded _ _) => true
  | _ => false

/-! ## Operation sequences over the strategies (for the state invariants) -/

/-- An operation against a fixed-window strategy, tagged with the value of
`time.time()` at its critical section. -/
inductive FWOp where
  | tryAcq (now : ℚ) (tokens : Nat)
  | waitT (now : ℚ)

def FixedWindowStrategy.step (s : FixedWindowStrategy) : FWOp → FixedWindowStrategy
  | .tryAcq now tokens => (s.acquire now tokens).2
  | .waitT now => (s.wait_time now).2

def FixedWindowStrategy.run (s : FixedWindowStrategy) (l : List FWOp) : FixedWindowStrategy :=
  l.foldl FixedWindowStrategy.step s

/-- An operation against a token-bucket strategy. -/
inductive TBOp where
  | tryAcq (now : ℚ) (tokens : Nat)
  | waitT (now : ℚ)

def TBOp.now : TBOp → ℚ
  | .tryAcq t _ => t
  | .waitT t => t

def TokenBucketStrategy.step (s : TokenBucketStrategy) : TBOp → TokenBucketStrategy
  | .tryAcq now tokens => (s.acquire now tokens).2
  | .waitT now => (s.wait_time now).2

def TokenBucketStrategy.run (s : TokenBucketStrategy) (l : List TBOp) : TokenBucketStrategy :=
  l.foldl TokenBucketStrategy.step s

/-- The wall clock does not run backwards across the sequence. -/
def TokenBucketStrategy.timesOk (s : TokenBucketStrategy) : List TBOp → Prop
  | [] => True
  | op :: rest => s.last_update ≤ op.now ∧ (s.step op).timesOk rest

/-- An operation against a leaky-bucket strategy. -/
inductive LBOp where
  | tryAcq (now : ℚ) (tokens : Nat)
  | waitT (now : ℚ)

def LBOp.now : LBOp → ℚ
  | .tryAcq t _ => t
  | .waitT t => t

def LeakyBucketStrategy.step (s : LeakyBucketStrategy) : LBOp → LeakyBucketStrategy
  | .tryAcq now tokens => (s.acquire now tokens).2
  | .waitT now => (s.wait_time now).2

def LeakyBucketStrategy.run (s : LeakyBucketStrategy) (l : List LBOp) : LeakyBucketStrategy :=
  l.foldl LeakyBucketStrategy.step s

def LeakyBucketStrategy.timesOk (s : LeakyBucketStrategy) : List LBOp → Prop
  | [] => True
  | op :: rest => s.last_leak ≤ op.now ∧ (s.step op).timesOk rest

/-- An operation against an adaptive strategy, including the feedback hooks. -/
inductive ADOp where
  | tryAcq (now : ℚ) (tokens : Nat)
  | waitT (now : ℚ)
  | onSucc
  | onLimit (now : ℚ) (retry_after : Option ℚ)

def AdaptiveStrategy.step (s : AdaptiveStrategy) : ADOp → AdaptiveStrategy
  | .tryAcq now tokens => (s.acquire now tokens).2
  | .waitT now => (s.wait_time now).2
  | .onSucc => s.on_success
  | .onLimit now ra => s.on_rate_limit now ra

def AdaptiveStrategy.run (s : AdaptiveStrategy) (l : List ADOp) : AdaptiveStrategy :=
  l.foldl AdaptiveStrategy.step s

def AdaptiveStrategy.timesOk (s : AdaptiveStrategy) : List ADOp → Prop
  | [] => True
  | op :: rest =>
    (match op with
      | .tryAcq t _ => s.last_update ≤ t
      | .waitT t => s.last_update ≤ t
      | _ => True) ∧ (s.step op).timesOk rest

/-- The feedback call carries no truthy `retry_after` (Python `None` or `0.0`). -/
def ADOp.falsyRetryAfter : ADOp → Prop
  | .onLimit _ ra => ra = none ∨ ra = some 0
  | _ => True

end CteraSDK

instance {ε α : Type} [DecidableEq ε] [DecidableEq α] : DecidableEq (Except ε α) := fun a b =>
  match a, b with
  | .ok x, .ok y => decidable_of_iff (x = y) (by simp)
  | .error x, .error y => decidable_of_iff (x = y) (by simp)
  | .ok _, .error _ => .isFalse (by simp)
  | .error _, .ok _ => .isFalse (by simp)

section SanityChecks
open CteraSDK

example :
    syncResults (execSync true false [⟨0, .error 5, none⟩]) = [] := by decide

example :
    (execSync false true [⟨0, .ok 1, some true⟩, ⟨1, .error 2, none⟩]).progressCalls
      = [(1, 2)] := by decide

example :
    (execAsync true false
      [⟨0, .ok 1, some true⟩, ⟨1, .error 2, none⟩, ⟨2, .ok 3, some true⟩]).rollbackCalls
      = [2, 0] := by decide

example :
    (RateLimitManager.acquire alwaysThrottledOracle 0 ⟨0, 0, 0⟩ 3).attempts = 1 := by decide

example :
    (RateLimitManager.acquire alwaysThrottledOracle 0 ⟨0, 0, 0⟩ 0).attempts = 0 := by decide

example :
    ((AdaptiveStrategy.mk' 1 1 2 0).on_rate_limit 0 (some 10)).last_update = 10 := by
  norm_num [AdaptiveStrategy.mk', AdaptiveStrategy.on_rate_limit]

example :
    (((AdaptiveStrategy.mk' 1 1 2 0).on_rate_limit 0 (some 10)).acquire 1 1).2.tokens
      = -9 := by
  norm_num [AdaptiveStrategy.mk', AdaptiveStrategy.on_rate_limit, AdaptiveStrategy.acquire,
    AdaptiveStrategy.refill]

example :
    (rateLimitedCall alwaysThrottledOracle 7 (fun _ => (0 : Nat)) 0 3).1
      = .error (.runtimeError 7) := by decide

example :
    (rateLimitedCall alwaysThrottledOracle 7 (fun _ => (0 : Nat)) 0 3).2.1 = 3 := by decide

end SanityChecks

namespace CteraSDK

/-! ## Lemmas: the concurrent executor loop in closed form -/

theorem execAsyncGo_gather (allOps : List BulkOperation) (onP : Bool) :
    ∀ (rest : List BulkOperation) (i : Nat) (st : AsyncState),
      (execAsyncGo allOps onP rest i st).gather = st.gather ++ gatherOf rest i := by
  intro rest
  induction rest with
  | nil => intro i st; simp [execAsyncGo, gatherOf]
  | cons op rest ih =>
    intro i st
    cases hact : op.action with
    | ok v => simp [execAsyncGo, gatherOf, hact, ih]
    | error e => simp [execAsyncGo, gatherOf, hact, ih]

theorem execAsyncGo_resultOf (allOps : List BulkOperation) (onP : Bool) :
    ∀ (rest : List BulkOperation) (i : Nat) (st : AsyncState),
      (execAsyncGo allOps onP rest i st).resultOf = storeOf rest i st.resultOf := by
  intro rest
  induction rest with
  | nil => intro i st; simp [execAsyncGo, storeOf]
  | cons op rest ih =>
    intro i st
    cases hact : op.action with
    | ok v => simp [execAsyncGo, storeOf, hact, ih]
    | error e => simp [execAsyncGo, storeOf, hact, ih]

theorem execAsyncGo_completed (allOps : List BulkOperation) (onP : Bool) :
    ∀ (rest : List BulkOperation) (i : Nat) (st : AsyncState),
      (execAsyncGo allOps onP rest i st).completed = st.completed ++ completedOf rest i := by
  intro rest
  induction rest with
  | nil => intro i st; simp [execAsyncGo, completedOf]
  | cons op rest ih =>
    intro i st
    cases hact : op.action with
    | ok v => simp [execAsyncGo, completedOf, hact, ih]
    | error e => simp [execAsyncGo, completedOf, hact, ih]

theorem execAsyncGo_rollbackCalls (allOps : List BulkOperation) (onP : Bool) :
    ∀ (rest : List BulkOperation) (i : Nat) (st : AsyncState),
      (execAsyncGo allOps onP rest i st).rollbackCalls = st.rollbackCalls := by
  intro rest
  induction rest with
  | nil => intro i st; simp [execAsyncGo]
  | cons op rest ih =>
    intro i st
    cases hact : op.action with
    | ok v => simp [execAsyncGo, hact, ih]
    | error e => simp [execAsyncGo, hact, ih]

theorem execAsyncGo_progress (allOps : List BulkOperation) (onP : Bool) :
    ∀ (rest : List BulkOperation) (i : Nat) (st : AsyncState),
      (execAsyncGo allOps onP rest i st).progressCalls
        = st.progressCalls
          ++ (if onP then progressOf allOps.length rest st.completed.length else []) := by
  intro rest
  induction rest with
  | nil => intro i st; simp [execAsyncGo, progressOf]
  | cons op rest ih =>
    intro i st
    cases hact : op.action with
    | ok v => cases onP <;> simp [execAsyncGo, progressOf, hact, ih]
    | error e => cases onP <;> simp [execAsyncGo, progressOf, hact, ih]

/-! ## Lemmas: the sequential executor loop with rollback disabled -/

theorem execSyncGo_false_resultOf (allOps : List BulkOperation) (onP : Bool) :
    ∀ (rest : List BulkOperation) (i : Nat) (st : SyncState),
      (execSyncGo allOps false onP rest i st).resultOf = storeAllOf rest i st.resultOf := by
  intro rest
  induction rest with
  | nil => intro i st; simp [execSyncGo, storeAllOf]
  | cons op rest ih =>
    intro i st
    cases hact : op.action with
    | ok v => simp [execSyncGo, storeAllOf, hact, ih]
    | error e => simp [execSyncGo, storeAllOf, hact, ih]

theorem execSyncGo_false_completed (allOps : List BulkOperation) (onP : Bool) :
    ∀ (rest : List BulkOperation) (i : Nat) (st : SyncState),
      (execSyncGo allOps false onP rest i st).completed = st.completed ++ completedOf rest i := by
  intro rest
  induction rest with
  | nil => intro i st; simp [execSyncGo, completedOf]
  | cons op rest ih =>
    intro i st
    cases hact : op.action with
    | ok v => simp [execSyncGo, completedOf, hact, ih]
    | error e => simp [execSyncGo, completedOf, hact, ih]

theorem execSyncGo_false_resultsIdx (allOps : List BulkOperation) (onP : Bool) :
    ∀ (rest : List BulkOperation) (i : Nat) (st : SyncState),
      (execSyncGo allOps false onP rest i st).resultsIdx
        = st.resultsIdx ++ List.range' i rest.length := by
  intro rest
  induction rest with
  | nil => intro i st; simp [execSyncGo]
  | cons op rest ih =>
    intro i st
    cases hact : op.action with
    | ok v => simp [execSyncGo, hact, ih, List.range'_succ]
    | error e => simp [execSyncGo, hact, ih, List.range'_succ]

theorem execSyncGo_false_rollbackCalls (allOps : List BulkOperation) (onP : Bool) :
    ∀ (rest : List BulkOperation) (i : Nat) (st : SyncState),
      (execSyncGo allOps false onP rest i st).rollbackCalls = st.rollbackCalls := by
  intro rest
  induction rest with
  | nil => intro i st; simp [execSyncGo]
  | cons op rest ih =>
    intro i st
    cases hact : op.action with
    | ok v => simp [execSyncGo, hact, ih]
    | error e => simp [execSyncGo, hact, ih]

/-! ## Lemmas: the sequential executor loop with rollback enabled -/

theorem isOk_ok (v : Int) : (Except.ok v : Except Nat Int).isOk = true := rfl

theorem isOk_error (e : Nat) : (Except.error e : Except Nat Int).isOk = false := rfl

theorem failResOf_cons_succ (op : BulkOperation) (rest : List BulkOperation) (k : Nat) :
    failResOf (op :: rest) (k + 1) = failResOf rest k := by
  simp [failResOf]

theorem execSyncGo_true_spec (allOps : List BulkOperation) (onP : Bool) :
    ∀ (rest : List BulkOperation) (i : Nat) (st : SyncState),
      execSyncGo allOps true onP rest i st =
        if rest.all (fun op => op.action.isOk) then
          { resultOf := storeOf rest i st.resultOf
            completed := st.completed ++ completedOf rest i
            resultsIdx := st.resultsIdx ++ List.range' i rest.length
            progressCalls := st.progressCalls
              ++ (if onP then progressOf allOps.length rest st.completed.length else [])
            rollbackCalls := st.rollbackCalls }
        else
          let pre := rest.takeWhile (fun op => op.action.isOk)
          let k := pre.length
          let ros1 := (storeOf pre i st.resultOf).set (i + k) (failResOf rest k)
          let completed1 := st.completed ++ List.range' i k
          let rb := rollbackPass allOps ros1 completed1
          { resultOf := rb.1
            completed := completed1
            resultsIdx := st.resultsIdx ++ List.range' i k
            progressCalls := st.progressCalls
              ++ (if onP then progressOf allOps.length pre st.completed.length else [])
            rollbackCalls := st.rollbackCalls ++ rb.2 } := by
  intro rest
  induction rest with
  | nil => intro i st; simp [execSyncGo, completedOf, storeOf, progressOf]
  | cons op rest ih =>
    intro i st
    cases hact : op.action with
    | ok v =>
      have hok : op.action.isOk = true := by rw [hact]; rfl
      simp only [execSyncGo, hact]
      rw [ih]
      simp only [List.all_cons, hok, Bool.true_and]
      split
      · cases onP <;>
          simp [storeOf, completedOf, progressOf, hact, List.range'_succ]
      · cases onP <;>
          simp [storeOf, completedOf, progressOf, hact, hok, isOk_ok, List.range'_succ,
            List.takeWhile_cons_of_pos, failResOf_cons_succ, Nat.add_right_comm,
            Nat.add_assoc, Nat.add_comm 1]
    | error e =>
      have hok : op.action.isOk = false := by rw [hact]; rfl
      cases onP <;>
        simp [execSyncGo, hact, hok, storeOf, completedOf, progressOf, failResOf,
          List.takeWhile_cons_of_neg, Except.isOk, Except.toBool]

theorem execSyncGo_false_progress (allOps : List BulkOperation) (onP : Bool) :
    ∀ (rest : List BulkOperation) (i : Nat) (st : SyncState),
      (execSyncGo allOps false onP rest i st).progressCalls
        = st.progressCalls
          ++ (if onP then progressOf allOps.length rest st.completed.length else []) := by
  intro rest
  induction rest with
  | nil => intro i st; simp [execSyncGo, progressOf]
  | cons op rest ih =>
    intro i st
    cases hact : op.action with
    | ok v => cases onP <;> simp [execSyncGo, progressOf, hact, ih]
    | error e => cases onP <;> simp [execSyncGo, progressOf, hact, ih]

/-! ## Lemmas: the result store -/

theorem storeOf_length (rest : List BulkOperation) :
    ∀ (i : Nat) (ros : ResultStore), (storeOf rest i ros).length = ros.length := by
  induction rest with
  | nil => intro i ros; simp [storeOf]
  | cons op rest ih =>
    intro i ros
    cases hact : op.action with
    | ok v => simp [storeOf, hact, ih]
    | error e => simp [storeOf, hact, ih]

theorem storeOf_get?_lt (rest : List BulkOperation) :
    ∀ (i : Nat) (ros : ResultStore) (j : Nat), j < i →
      (storeOf rest i ros).get? j = ros.get? j := by
  induction rest with
  | nil => intro i ros j _; simp [storeOf]
  | cons op rest ih =>
    intro i ros j hj
    cases hact : op.action with
    | ok v =>
      rw [storeOf, hact]
      rw [ih (i + 1) _ j (by omega), List.get?_set_ne _ _ (by omega)]
    | error e =>
      rw [storeOf, hact]
      exact ih (i + 1) ros j (by omega)

theorem storeOf_get?_at (rest : List BulkOperation) :
    ∀ (k i : Nat) (ros : ResultStore) (op : BulkOperation),
      i + rest.length ≤ ros.length → rest.get? k = some op →
      (storeOf rest i ros).get? (i + k) =
        match op.action with
        | .ok v => some (some ⟨op.operation_id, .success, some v, none⟩)
        | .error _ => ros.get? (i + k) := by
  induction rest with
  | nil => intro k i ros op _ hk; simp at hk
  | cons op' rest ih =>
    intro k i ros op hlen hk
    cases k with
    | zero =>
      simp only [List.get?_cons_zero, Option.some.injEq] at hk
      subst hk
      cases hact : op'.action with
      | ok v =>
        rw [storeOf, hact]
        rw [storeOf_get?_lt rest (i + 1) _ (i + 0) (by omega)]
        simp only [Nat.add_zero]
        rw [List.get?_set_eq_of_lt _ (by simp at hlen; omega)]
      | error e =>
        rw [storeOf, hact]
        rw [storeOf_get?_lt rest (i + 1) _ (i + 0) (by omega)]
    | succ k' =>
      simp only [List.get?_cons_succ] at hk
      have harith : i + (k' + 1) = (i + 1) + k' := by omega
      cases hact : op'.action with
      | ok v =>
        rw [storeOf, hact, harith]
        rw [ih k' (i + 1) _ op (by simp at hlen ⊢; omega) hk]
        cases hact2 : op.action with
        | ok w => rfl
        | error e =>
          simp only []
          rw [List.get?_set_ne _ _ (by omega), ← harith]
      | error e =>
        rw [storeOf, hact, harith]
        rw [ih k' (i + 1) ros op (by simp at hlen ⊢; omega) hk, ← harith]

theorem storeAllOf_length (rest : List BulkOperation) :
    ∀ (i : Nat) (ros : ResultStore), (storeAllOf rest i ros).length = ros.length := by
  induction rest with
  | nil => intro i ros; simp [storeAllOf]
  | cons op rest ih =>
    intro i ros
    cases hact : op.action with
    | ok v => simp [storeAllOf, hact, ih]
    | error e => simp [storeAllOf, hact, ih]

theorem storeAllOf_get?_lt (rest : List BulkOperation) :
    ∀ (i : Nat) (ros : ResultStore) (j : Nat), j < i →
      (storeAllOf rest i ros).get? j = ros.get? j := by
  induction rest with
  | nil => intro i ros j _; simp [storeAllOf]
  | cons op rest ih =>
    intro i ros j hj
    cases hact : op.action with
    | ok v =>
      rw [storeAllOf, hact, ih (i + 1) _ j (by omega), List.get?_set_ne _ _ (by omega)]
    | error e =>
      rw [storeAllOf, hact, ih (i + 1) _ j (by omega), List.get?_set_ne _ _ (by omega)]

theorem storeAllOf_get?_at (rest : List BulkOperation) :
    ∀ (k i : Nat) (ros : ResultStore) (op : BulkOperation),
      i + rest.length ≤ ros.length → rest.get? k = some op →
      (storeAllOf rest i ros).get? (i + k) =
        match op.action with
        | .ok v => some (some ⟨op.operation_id, .success, some v, none⟩)
        | .error e => some (some ⟨op.operation_id, .failed, none, some e⟩) := by
  induction rest with
  | nil => intro k i ros op _ hk; simp at hk
  | cons op' rest ih =>
    intro k i ros op hlen hk
    cases k with
    | zero =>
      simp only [List.get?_cons_zero, Option.some.injEq] at hk
      subst hk
      cases hact : op'.action with
      | ok v =>
        rw [storeAllOf, hact]
        rw [storeAllOf_get?_lt rest (i + 1) _ (i + 0) (by omega)]
        simp only [Nat.add_zero]
        rw [List.get?_set_eq_of_lt _ (by simp at hlen; omega)]
      | error e =>
        rw [storeAllOf, hact]
        rw [storeAllOf_get?_lt rest (i + 1) _ (i + 0) (by omega)]
        simp only [Nat.add_zero]
        rw [List.get?_set_eq_of_lt _ (by simp at hlen; omega)]
    | succ k' =>
      simp only [List.get?_cons_succ] at hk
      have harith : i + (k' + 1) = (i + 1) + k' := by omega
      cases hact : op'.action with
      | ok v =>
        rw [storeAllOf, hact, harith]
        exact ih k' (i + 1) _ op (by simp at hlen ⊢; omega) hk
      | error e =>
        rw [storeAllOf, hact, harith]
        exact ih k' (i + 1) _ op (by simp at hlen ⊢; omega) hk

/-! ## Lemmas: rollback -/

theorem updateStatus_length (ros : ResultStore) (i : Nat) (stt : OperationStatus) :
    (updateStatus ros i stt).length = ros.length := by
  unfold updateStatus
  split <;> simp

theorem updateStatus_idAt (ros : ResultStore) (i : Nat) (stt : OperationStatus) (j : Nat) :
    idAt (updateStatus ros i stt) j = idAt ros j := by
  unfold updateStatus
  split
  next r h =>
    by_cases hji : j = i
    · subst hji
      have hlt : j < ros.length := by
        by_contra hge
        rw [List.get?_eq_none.mpr (by omega)] at h
        exact Option.noConfusion h
      rw [idAt, List.get?_set_eq_of_lt _ hlt, idAt, h]
      simp
    · rw [idAt, List.get?_set_ne _ _ (fun hh => hji hh.symm), idAt]
  next => rfl

theorem updateStatus_statusAt (ros : ResultStore) (i : Nat) (stt : OperationStatus) (j : Nat) :
    statusAt (updateStatus ros i stt) j = statusAt ros j
      ∨ statusAt (updateStatus ros i stt) j = some stt := by
  unfold updateStatus
  split
  next r h =>
    by_cases hji : j = i
    · subst hji
      have hlt : j < ros.length := by
        by_contra hge
        rw [List.get?_eq_none.mpr (by omega)] at h
        exact Option.noConfusion h
      right
      rw [statusAt, List.get?_set_eq_of_lt _ hlt]
      simp
    · left
      rw [statusAt, List.get?_set_ne _ _ (fun hh => hji hh.symm), statusAt]
  next => left; rfl

theorem rollbackStep_fst_cases (ops : List BulkOperation) (ros : ResultStore)
    (acc : List Nat) (i : Nat) :
    (rollbackStep ops (ros, acc) i).1 = ros
      ∨ (rollbackStep ops (ros, acc) i).1 = updateStatus ros i .rolledBack := by
  unfold rollbackStep
  cases h : ops.get? i with
  | none => left; rfl
  | some op =>
    cases hrb : op.rollback_func with
    | none => left; simp [hrb]
    | some b =>
      cases b
      · left; simp [hrb]
      · right; simp [hrb, updateStatus]

theorem foldl_rollbackStep_snd (ops : List BulkOperation) :
    ∀ (l : List Nat) (ros : ResultStore) (acc : List Nat),
      (l.foldl (rollbackStep ops) (ros, acc)).2 = acc ++ l.filter (hasRB ops) := by
  intro l
  induction l with
  | nil => intro ros acc; simp
  | cons i l ih =>
    intro ros acc
    rw [List.foldl_cons]
    rw [show rollbackStep ops (ros, acc) i
        = ((rollbackStep ops (ros, acc) i).1, (rollbackStep ops (ros, acc) i).2) from rfl]
    rw [ih]
    have hsnd : (rollbackStep ops (ros, acc) i).2
        = acc ++ (if hasRB ops i then [i] else []) := by
      unfold rollbackStep hasRB
      cases h : ops.get? i with
      | none => simp
      | some op =>
        cases hrb : op.rollback_func with
        | none => simp [hrb]
        | some b => cases b <;> simp [hrb]
    rw [hsnd, List.filter_cons]
    by_cases hrb : hasRB ops i = true <;> simp [hrb]

theorem foldl_rollbackStep_idAt (ops : List BulkOperation) :
    ∀ (l : List Nat) (ros : ResultStore) (acc : List Nat) (j : Nat),
      idAt (l.foldl (rollbackStep ops) (ros, acc)).1 j = idAt ros j := by
  intro l
  induction l with
  | nil => intro ros acc j; rfl
  | cons i l ih =>
    intro ros acc j
    rw [List.foldl_cons]
    rw [show rollbackStep ops (ros, acc) i
        = ((rollbackStep ops (ros, acc) i).1, (rollbackStep ops (ros, acc) i).2) from rfl]
    rw [ih]
    rcases rollbackStep_fst_cases ops ros acc i with hstep | hstep <;> rw [hstep]
    exact updateStatus_idAt ros i .rolledBack j

theorem foldl_rollbackStep_statusAt (ops : List BulkOperation) :
    ∀ (l : List Nat) (ros : ResultStore) (acc : List Nat) (j : Nat),
      statusAt (l.foldl (rollbackStep ops) (ros, acc)).1 j = statusAt ros j
        ∨ statusAt (l.foldl (rollbackStep ops) (ros, acc)).1 j = some .rolledBack := by
  intro l
  induction l with
  | nil => intro ros acc j; left; rfl
  | cons i l ih =>
    intro ros acc j
    rw [List.foldl_cons]
    rw [show rollbackStep ops (ros, acc) i
        = ((rollbackStep ops (ros, acc) i).1, (rollbackStep ops (ros, acc) i).2) from rfl]
    rcases ih (rollbackStep ops (ros, acc) i).1 (rollbackStep ops (ros, acc) i).2 j
      with hh | hh
    · rw [hh]
      rcases rollbackStep_fst_cases ops ros acc i with hstep | hstep
      · rw [hstep]; left; rfl
      · rw [hstep]
        exact updateStatus_statusAt ros i .rolledBack j
    · right; exact hh

theorem rollbackPass_snd (ops : List BulkOperation) (ros : ResultStore)
    (completed : List Nat) :
    (rollbackPass ops ros completed).2 = completed.reverse.filter (hasRB ops) := by
  rw [rollbackPass, foldl_rollbackStep_snd]
  simp

theorem rollbackPass_idAt (ops : List BulkOperation) (ros : ResultStore)
    (completed : List Nat) (j : Nat) :
    idAt (rollbackPass ops ros completed).1 j = idAt ros j :=
  foldl_rollbackStep_idAt ops completed.reverse ros [] j

theorem rollbackPass_statusAt (ops : List BulkOperation) (ros : ResultStore)
    (completed : List Nat) (j : Nat) :
    statusAt (rollbackPass ops ros completed).1 j = statusAt ros j
      ∨ statusAt (rollbackPass ops ros completed).1 j = some .rolledBack :=
  foldl_rollbackStep_statusAt ops completed.reverse ros [] j

/-! ## Lemmas: closed-form combinatorics -/

theorem replicate_store_get? (n j : Nat) :
    (List.replicate n (none : Option OperationResult)).get? j
      = if j < n then some none else none := by
  simp [List.get?_eq_getElem?, List.getElem?_replicate]

theorem completedOf_mem_le :
    ∀ (rest : List BulkOperation) (i j : Nat), j ∈ completedOf rest i → i ≤ j := by
  intro rest
  induction rest with
  | nil => intro i j h; simp [completedOf] at h
  | cons op rest ih =>
    intro i j h
    cases hact : op.action with
    | ok v =>
      simp only [completedOf, hact, List.mem_cons] at h
      rcases h with h | h
      · omega
      · have := ih (i + 1) j h; omega
    | error e =>
      simp only [completedOf, hact] at h
      have := ih (i + 1) j h; omega

theorem completedOf_sorted :
    ∀ (rest : List BulkOperation) (i : Nat), List.Sorted (· < ·) (completedOf rest i) := by
  intro rest
  induction rest with
  | nil => intro i; simp [completedOf]
  | cons op rest ih =>
    intro i
    cases hact : op.action with
    | ok v =>
      simp only [completedOf, hact, List.sorted_cons]
      exact ⟨fun j hj => by have := completedOf_mem_le rest (i + 1) j hj; omega, ih (i + 1)⟩
    | error e =>
      simp only [completedOf, hact]
      exact ih (i + 1)

theorem completedOf_nodup (rest : List BulkOperation) (i : Nat) :
    (completedOf rest i).Nodup :=
  (completedOf_sorted rest i).nodup

theorem countOk_cons (op : BulkOperation) (rest : List BulkOperation) :
    countOk (op :: rest)
      = if op.action.isOk then countOk rest + 1 else countOk rest := by
  simp only [countOk, List.filter_cons]
  split <;> simp

theorem progressOf_eq (total : Nat) :
    ∀ (rest : List BulkOperation) (c : Nat),
      progressOf total rest c
        = (List.range' (c + 1) (countOk rest)).map (fun m => (m, total)) := by
  intro rest
  induction rest with
  | nil => intro c; simp [progressOf, countOk]
  | cons op rest ih =>
    intro c
    cases hact : op.action with
    | ok v =>
      have hok : op.action.isOk = true := by rw [hact]; rfl
      simp [progressOf, hact, countOk_cons, hok, isOk_ok, ih, List.range'_succ]
    | error e =>
      have hok : op.action.isOk = false := by rw [hact]; rfl
      simp [progressOf, hact, countOk_cons, hok, isOk_error, ih]

theorem countOk_takeWhile (l : List BulkOperation) :
    countOk (l.takeWhile (fun op => op.action.isOk))
      = (l.takeWhile (fun op => op.action.isOk)).length := by
  induction l with
  | nil => simp [countOk]
  | cons op rest ih =>
    cases hact : op.action with
    | ok v =>
      have hok : op.action.isOk = true := by rw [hact]; rfl
      simp [List.takeWhile_cons_of_pos, hok, countOk_cons, ih]
    | error e =>
      have hok : op.action.isOk = false := by rw [hact]; rfl
      simp [List.takeWhile_cons_of_neg, hok, countOk]

theorem takeWhile_eq_self_of_all (l : List BulkOperation)
    (h : l.all (fun op => op.action.isOk) = true) :
    l.takeWhile (fun op => op.action.isOk) = l := by
  induction l with
  | nil => rfl
  | cons op rest ih =>
    simp only [List.all_cons, Bool.and_eq_true] at h
    simp [List.takeWhile_cons_of_pos, h.1, ih h.2]

/-! ## Lemmas: the gather list -/

theorem gatherOf_any_failed (R : ResultStore) :
    ∀ (rest : List BulkOperation) (i : Nat),
      (∀ k op, rest.get? k = some op → op.action.isOk = true →
        statusAt R (i + k) = some OperationStatus.success) →
      ((gatherOf rest i).any fun g => gatherStatus R g = some OperationStatus.failed)
        = rest.any fun op => !op.action.isOk := by
  intro rest
  induction rest with
  | nil => intro i _; simp [gatherOf]
  | cons op rest ih =>
    intro i h
    have htail : ∀ k op', rest.get? k = some op' → op'.action.isOk = true →
        statusAt R ((i + 1) + k) = some OperationStatus.success := by
      intro k op' hk hok
      have harr : i + (k + 1) = (i + 1) + k := by omega
      have := h (k + 1) op' (by simpa using hk) hok
      rwa [harr] at this
    cases hact : op.action with
    | ok v =>
      have h0 : gatherStatus R (GatherItem.aliased i) = some OperationStatus.success := by
        have := h 0 op (by simp) (by rw [hact]; rfl)
        simpa [gatherStatus, statusAt] using this
      simp [gatherOf, hact, List.any_cons, ih (i + 1) htail, h0, isOk_ok]
    | error e =>
      have h1 : gatherStatus R
          (GatherItem.fresh ⟨op.operation_id, .failed, none, some e⟩)
            = some OperationStatus.failed := rfl
      simp [gatherOf, hact, List.any_cons, h1, isOk_error]

theorem asyncResults_ids (st : AsyncState) :
    resultIds (asyncResults st)
      = st.gather.map (fun g =>
          match g with
          | GatherItem.aliased i => idAt st.resultOf i
          | GatherItem.fresh r => some r.operation_id) := by
  rw [asyncResults, resultIds, List.map_map]
  refine List.map_congr_left ?_
  intro g _
  cases g <;> rfl

theorem gatherOf_map_ids (R : ResultStore) :
    ∀ (rest : List BulkOperation) (i : Nat),
      (∀ k op, rest.get? k = some op → op.action.isOk = true →
        idAt R (i + k) = some op.operation_id) →
      (gatherOf rest i).map (fun g =>
          match g with
          | GatherItem.aliased j => idAt R j
          | GatherItem.fresh r => some r.operation_id)
        = rest.map (fun op => some op.operation_id) := by
  intro rest
  induction rest with
  | nil => intro i _; simp [gatherOf]
  | cons op rest ih =>
    intro i h
    have htail : ∀ k op', rest.get? k = some op' → op'.action.isOk = true →
        idAt R ((i + 1) + k) = some op'.operation_id := by
      intro k op' hk hok
      have harr : i + (k + 1) = (i + 1) + k := by omega
      have := h (k + 1) op' (by simpa using hk) hok
      rwa [harr] at this
    cases hact : op.action with
    | ok v =>
      have h0 := h 0 op (by simp) (by rw [hact]; rfl)
      simp only [Nat.add_zero] at h0
      simp [gatherOf, hact, ih (i + 1) htail, h0]
    | error e =>
      simp [gatherOf, hact, ih (i + 1) htail]

/-! ## Lemmas: the final store of the concurrent path -/

theorem storeOf_statusAt_ok (ops : List BulkOperation) (k : Nat) (op : BulkOperation)
    (hk : ops.get? k = some op) (hok : op.action.isOk = true) :
    statusAt (storeOf ops 0 (List.replicate ops.length none)) k
      = some OperationStatus.success := by
  have hmain := storeOf_get?_at ops k 0 (List.replicate ops.length none) op (by simp) hk
  rw [show (0 : Nat) + k = k from by omega] at hmain
  cases hact : op.action with
  | ok v => rw [statusAt, hmain]; simp [hact]
  | error e => rw [hact] at hok; exact absurd hok (by simp [Except.isOk, Except.toBool])

theorem storeOf_idAt_ok (ops : List BulkOperation) (k : Nat) (op : BulkOperation)
    (hk : ops.get? k = some op) (hok : op.action.isOk = true) :
    idAt (storeOf ops 0 (List.replicate ops.length none)) k = some op.operation_id := by
  have hmain := storeOf_get?_at ops k 0 (List.replicate ops.length none) op (by simp) hk
  rw [show (0 : Nat) + k = k from by omega] at hmain
  cases hact : op.action with
  | ok v => rw [idAt, hmain]; simp [hact]
  | error e => rw [hact] at hok; exact absurd hok (by simp [Except.isOk, Except.toBool])

theorem storeOf_get?_error (ops : List BulkOperation) (k : Nat) (op : BulkOperation)
    (hk : ops.get? k = some op) (hnok : op.action.isOk = false) :
    (storeOf ops 0 (List.replicate ops.length none)).get? k = some none := by
  have hmain := storeOf_get?_at ops k 0 (List.replicate ops.length none) op (by simp) hk
  rw [show (0 : Nat) + k = k from by omega] at hmain
  have hklt : k < ops.length := by
    by_contra hge
    rw [List.get?_eq_none.mpr (by omega)] at hk
    exact Option.noConfusion hk
  cases hact : op.action with
  | ok v => rw [hact] at hnok; exact absurd hnok (by simp [Except.isOk, Except.toBool])
  | error e =>
    rw [hmain]
    simp [hact, replicate_store_get?, hklt]

/-! ## Lemmas: `execute_async` components -/

theorem execAsync_gather (rb onP : Bool) (ops : List BulkOperation) :
    (execAsync rb onP ops).gather = gatherOf ops 0 := by
  dsimp only [execAsync]
  split <;> simp [execAsyncGo_gather]

theorem execAsync_completed (rb onP : Bool) (ops : List BulkOperation) :
    (execAsync rb onP ops).completed = completedOf ops 0 := by
  dsimp only [execAsync]
  split <;> simp [execAsyncGo_completed]

theorem execAsync_progress (rb onP : Bool) (ops : List BulkOperation) :
    (execAsync rb onP ops).progressCalls
      = if onP then progressOf ops.length ops 0 else [] := by
  dsimp only [execAsync]
  split <;> simp [execAsyncGo_progress]

theorem execAsync_anyFailed (onP : Bool) (ops : List BulkOperation) :
    ((execAsyncGo ops onP ops 0
        ⟨List.replicate ops.length none, [], [], [], []⟩).gather.any
      fun g => gatherStatus (execAsyncGo ops onP ops 0
        ⟨List.replicate ops.length none, [], [], [], []⟩).resultOf g
          = some OperationStatus.failed)
      = ops.any fun op => !op.action.isOk := by
  rw [execAsyncGo_gather, execAsyncGo_resultOf]
  simp only [List.nil_append]
  exact gatherOf_any_failed _ ops 0
    (fun k op hk hok => by simpa using storeOf_statusAt_ok ops k op hk hok)

theorem execAsync_resultOf (rb onP : Bool) (ops : List BulkOperation) :
    (execAsync rb onP ops).resultOf
      = if ((ops.any fun op => !op.action.isOk) && rb) = true then
          (rollbackPass ops (storeOf ops 0 (List.replicate ops.length none))
            (completedOf ops 0)).1
        else storeOf ops 0 (List.replicate ops.length none) := by
  dsimp only [execAsync]
  rw [execAsync_anyFailed onP ops]
  split <;> simp [execAsyncGo_resultOf, execAsyncGo_completed]

theorem execAsync_rollbackCalls (rb onP : Bool) (ops : List BulkOperation) :
    (execAsync rb onP ops).rollbackCalls
      = if ((ops.any fun op => !op.action.isOk) && rb) = true then
          (completedOf ops 0).reverse.filter (hasRB ops)
        else [] := by
  dsimp only [execAsync]
  rw [execAsync_anyFailed onP ops]
  split <;>
    simp [execAsyncGo_rollbackCalls, execAsyncGo_resultOf, execAsyncGo_completed,
      rollbackPass_snd]

/-! ## Lemmas: the coordinator retry loop -/

theorem acquireLoop_spec {σ : Type} (strat : StrategyOracle σ) :
    ∀ (n : Nat) (s : σ) (stats : RateLimitStats),
      (acquireLoop strat s stats n).attempts ≤ n
        ∧ (1 ≤ n → (acquireLoop strat s stats n).attempts
            = (acquireLoop strat s stats n).sleeps.length + 1)
        ∧ (acquireLoop strat s stats n).stats.total_requests = stats.total_requests
        ∧ ((acquireLoop strat s stats n).ok = true →
            (acquireLoop strat s stats n).stats.throttled_requests + 1
              = stats.throttled_requests + (acquireLoop strat s stats n).attempts)
        ∧ ((acquireLoop strat s stats n).ok = false →
            (acquireLoop strat s stats n).stats.throttled_requests
              = stats.throttled_requests + (acquireLoop strat s stats n).attempts)
        ∧ (∀ w ∈ (acquireLoop strat s stats n).sleeps, 0 < w)
        ∧ (acquireLoop strat s stats n).stats.total_wait_time
            = stats.total_wait_time + (acquireLoop strat s stats n).sleeps.sum := by
  intro n
  induction n with
  | zero =>
    intro s stats
    simp [acquireLoop]
  | succ n ih =>
    intro s stats
    by_cases ha : (strat.tryAcquire s).1 = true
    · simp [acquireLoop, ha]
    · simp only [Bool.not_eq_true] at ha
      by_cases hc : 0 < (strat.waitTime (strat.tryAcquire s).2).1 ∧ 0 < n
      · obtain ⟨h1, h2, h3, h4, h5, h6, h7⟩ :=
          ih (strat.waitTime (strat.tryAcquire s).2).2
            { stats with
                throttled_requests := stats.throttled_requests + 1
                total_wait_time :=
                  stats.total_wait_time + (strat.waitTime (strat.tryAcquire s).2).1 }
        have hout :
            acquireLoop strat s stats (n + 1)
              = ⟨(acquireLoop strat (strat.waitTime (strat.tryAcquire s).2).2
                    { stats with
                        throttled_requests := stats.throttled_requests + 1
                        total_wait_time :=
                          stats.total_wait_time
                            + (strat.waitTime (strat.tryAcquire s).2).1 } n).ok,
                  (acquireLoop strat (strat.waitTime (strat.tryAcquire s).2).2
                    { stats with
                        throttled_requests := stats.throttled_requests + 1
                        total_wait_time :=
                          stats.total_wait_time
                            + (strat.waitTime (strat.tryAcquire s).2).1 } n).state,
                  (acquireLoop strat (strat.waitTime (strat.tryAcquire s).2).2
                    { stats with
                        throttled_requests := stats.throttled_requests + 1
                        total_wait_time :=
                          stats.total_wait_time
                            + (strat.waitTime (strat.tryAcquire s).2).1 } n).stats,
                  (strat.waitTime (strat.tryAcquire s).2).1
                    :: (acquireLoop strat (strat.waitTime (strat.tryAcquire s).2).2
                      { stats with
                          throttled_requests := stats.throttled_requests + 1
                          total_wait_time :=
                            stats.total_wait_time
                              + (strat.waitTime (strat.tryAcquire s).2).1 } n).sleeps,
                  (acquireLoop strat (strat.waitTime (strat.tryAcquire s).2).2
                    { stats with
                        throttled_requests := stats.throttled_requests + 1
                        total_wait_time :=
                          stats.total_wait_time
                            + (strat.waitTime (strat.tryAcquire s).2).1 } n).attempts + 1⟩ := by
          simp [acquireLoop, ha, hc]
        rw [hout]
        dsimp only at h1 h2 h3 h4 h5 h6 h7 ⊢
        refine ⟨by omega, ?_, by simpa using h3, ?_, ?_, ?_, ?_⟩
        · intro _
          have := h2 hc.2
          simp only [List.length_cons]
          omega
        · intro hok
          have := h4 hok
          omega
        · intro hnok
          have := h5 hnok
          omega
        · intro w hw
          simp only [List.mem_cons] at hw
          rcases hw with hw | hw
          · rw [hw]; exact hc.1
          · exact h6 w hw
        · simp only [List.sum_cons]
          rw [h7]
          ring
      · have hout :
            acquireLoop strat s stats (n + 1)
              = ⟨false, (strat.waitTime (strat.tryAcquire s).2).2,
                  { stats with throttled_requests := stats.throttled_requests + 1 },
                  [], 1⟩ := by
          simp [acquireLoop, ha, hc]
        rw [hout]
        simp

/-! ## The claims -/

/-- C10: calling `RateLimitManager.acquire` with `max_retries = 0` returns
false without invoking the strategy even once (zero attempts, strategy state
returned untouched), leaves the throttled counter and the wait-time total
unchanged, and still increments `total_requests` by one — so `total_requests`
counts calls to `acquire`, and `max_retries ≥ 1` is needed for any request to
be admitted. -/
theorem claim_C10 {σ : Type} (strat : StrategyOracle σ) (s : σ) (stats : RateLimitStats) :
    RateLimitManager.acquire strat s stats 0
      = ⟨false, s, { stats with total_requests := stats.total_requests + 1 }, [], 0⟩ := rfl

/-- C6 counterexample: the claim says invalid strategy parameters and a zero
`max_concurrent` are rejected at construction time; in the code no constructor
validates anything — a token bucket with negative rate and zero capacity, and
a bulk manager with `max_concurrent = 0`, are both constructed successfully,
storing the invalid values verbatim. -/
theorem claim_C6_counterexample :
    TokenBucketStrategy.mk' (-1) 0 0
        = { rate := -1, capacity := 0, tokens := 0, last_update := 0 }
      ∧ BulkOperationManager.mk' 0 true
        = { max_concurrent := 0, enable_rollback := true } := by
  constructor
  · simp [TokenBucketStrategy.mk']
  · rfl

/-- C6 amended: no construction-time validation exists.  Every strategy
constructor and the bulk manager constructor are total functions that accept
any parameters (including non-positive rate or capacity and zero
`max_concurrent`) and store them unchanged; misconfiguration surfaces only at
use. -/
theorem claim_C6_amended (rate : ℚ) (capacity : ℤ) (now w ir mnr mxr : ℚ)
    (m mc : Nat) (rbf : Bool) :
    (TokenBucketStrategy.mk' rate capacity now).rate = rate
      ∧ (TokenBucketStrategy.mk' rate capacity now).capacity = capacity
      ∧ (LeakyBucketStrategy.mk' rate capacity now).rate = rate
      ∧ (LeakyBucketStrategy.mk' rate capacity now).capacity = capacity
      ∧ (FixedWindowStrategy.mk' m w).max_requests = m
      ∧ (FixedWindowStrategy.mk' m w).window_size = w
      ∧ (AdaptiveStrategy.mk' ir mnr mxr now).current_rate = ir
      ∧ (AdaptiveStrategy.mk' ir mnr mxr now).min_rate = mnr
      ∧ (AdaptiveStrategy.mk' ir mnr mxr now).max_rate = mxr
      ∧ BulkOperationManager.mk' mc rbf
        = { max_concurrent := mc, enable_rollback := rbf } :=
  ⟨rfl, rfl, rfl, rfl, rfl, rfl, rfl, rfl, rfl, rfl⟩

/-- C7 counterexample: a function wrapped by `rate_limited` whose strategy
rejects every attempt (max_retries = 3) raises the generic `RuntimeError`
naming the wrapped function — not the dedicated `RateLimitExceeded` error the
claim describes. -/
theorem claim_C7_counterexample :
    (rateLimitedCall alwaysThrottledOracle 7 (fun _ => (0 : Nat)) 0 3).1
        = Except.error (PyError.runtimeError 7)
      ∧ isRateLimitExceededError
          (rateLimitedCall alwaysThrottledOracle 7 (fun _ => (0 : Nat)) 0 3).1 = false := by
  exact ⟨by decide, by decide⟩

/-- C7 amended: when the wrapped function exhausts its acquire attempts, the
`rate_limited` wrapper raises a generic `RuntimeError` whose message names
only the wrapped function (the retry count appears only in a log line); the
dedicated `RateLimitExceeded` class (which does carry an endpoint and a retry
count) exists in `exceptions/ratelimit.py` but is never raised by the
wrapper. -/
theorem claim_C7_amended {σ α : Type} (strat : StrategyOracle σ) (funcName : Nat)
    (f : Unit → α) (s : σ) (r : Nat)
    (hfail : ∀ t : σ, (strat.tryAcquire t).1 = false) :
    (rateLimitedCall strat funcName f s r).1
      = Except.error (PyError.runtimeError funcName) := by
  induction r generalizing s with
  | zero => rfl
  | succ n ih =>
    simp only [rateLimitedCall, hfail, Bool.false_eq_true, if_false]
    exact ih _

/-- C7 witness. -/
theorem claim_C7_witness :
    (rateLimitedCall alwaysThrottledOracle 9 (fun _ => (1 : Nat)) 0 2).1
      = Except.error (PyError.runtimeError 9) :=
  claim_C7_amended alwaysThrottledOracle 9 (fun _ => (1 : Nat)) 0 2 (fun _ => rfl)

/-- C3 counterexample: the claim says that on every failed attempt except the
final one `acquire` suspends and retries, so with `max_retries = 3` and a
strategy that always rejects it would make 3 attempts; the code instead breaks
out of the loop as soon as the computed wait time is not positive, making
exactly one attempt, never sleeping, and returning false. -/
theorem claim_C3_counterexample :
    (RateLimitManager.acquire alwaysThrottledOracle 0 ⟨0, 0, 0⟩ 3).ok = false
      ∧ (RateLimitManager.acquire alwaysThrottledOracle 0 ⟨0, 0, 0⟩ 3).attempts = 1
      ∧ (RateLimitManager.acquire alwaysThrottledOracle 0 ⟨0, 0, 0⟩ 3).sleeps = []
      ∧ (RateLimitManager.acquire alwaysThrottledOracle 0 ⟨0, 0, 0⟩ 3).attempts ≠ 3 :=
  ⟨by decide, by decide, by decide, by decide⟩

/-- C3 amended: for `max_retries ≥ 1`, `acquire` makes between 1 and
`max_retries` try-acquire attempts and never raises; it returns true exactly
when the final attempt succeeded; every attempt after the first is preceded by
exactly one suspension, whose duration is positive (a failed attempt whose
computed wait time is zero — or a failed final attempt — ends the loop
immediately with false); each failed attempt increments the throttled counter
once; every call increments `total_requests` once; and the wait-time total
accumulates exactly the issued sleeps. -/
theorem claim_C3_amended {σ : Type} (strat : StrategyOracle σ) (s : σ)
    (stats : RateLimitStats) (n : Nat) (out : AcquireOutcome σ)
    (hn : 1 ≤ n) (hout : out = RateLimitManager.acquire strat s stats n) :
    1 ≤ out.attempts ∧ out.attempts ≤ n
      ∧ out.attempts = out.sleeps.length + 1
      ∧ out.stats.total_requests = stats.total_requests + 1
      ∧ (out.ok = true →
          out.stats.throttled_requests + 1
            = stats.throttled_requests + out.attempts)
      ∧ (out.ok = false →
          out.stats.throttled_requests = stats.throttled_requests + out.attempts)
      ∧ (∀ w ∈ out.sleeps, 0 < w)
      ∧ out.stats.total_wait_time = stats.total_wait_time + out.sleeps.sum := by
  subst hout
  obtain ⟨h1, h2, h3, h4, h5, h6, h7⟩ :=
    acquireLoop_spec strat n s
      { stats with total_requests := stats.total_requests + 1 }
  rw [RateLimitManager.acquire]
  refine ⟨by omega, h1, h2 hn, by simpa using h3, ?_, ?_, h6, by simpa using h7⟩
  · intro hok
    have := h4 hok
    simpa using this
  · intro hnok
    have := h5 hnok
    simpa using this

/-- C3 witness. -/
theorem claim_C3_witness :
    (RateLimitManager.acquire alwaysThrottledOracle 0 ⟨0, 0, 0⟩ 3).stats.total_requests
      = 1 :=
  (claim_C3_amended alwaysThrottledOracle 0 ⟨0, 0, 0⟩ 3
    (RateLimitManager.acquire alwaysThrottledOracle 0 ⟨0, 0, 0⟩ 3)
    (by norm_num) rfl).2.2.2.1

/-! ## Lemmas: endpoint resolution -/

theorem startsWithKey_self : ∀ (l : RateLimitManager.Endpoint),
    RateLimitManager.startsWithKey l l = true := by
  intro l
  induction l with
  | nil => rfl
  | cons c cs ih => simp [RateLimitManager.startsWithKey, ih]

theorem keys_nodup_eq {σ : Type} :
    ∀ (l : List (RateLimitManager.Endpoint × σ)), (l.map Prod.fst).Nodup →
      ∀ p q, p ∈ l → q ∈ l → p.1 = q.1 → p = q := by
  intro l
  induction l with
  | nil => intro _ p q hp _ _; simp at hp
  | cons a l ih =>
    intro hnd p q hp hq hpq
    simp only [List.map_cons, List.nodup_cons] at hnd
    rcases List.mem_cons.mp hp with hp | hp <;> rcases List.mem_cons.mp hq with hq | hq
    · rw [hp, hq]
    · exfalso
      apply hnd.1
      rw [hp] at hpq
      rw [hpq]
      exact List.mem_map_of_mem Prod.fst hq
    · exfalso
      apply hnd.1
      rw [hq] at hpq
      rw [← hpq]
      exact List.mem_map_of_mem Prod.fst hp
    · exact ih hnd.2 p q hp hq hpq

/-- C9: strategy resolution returns the strategy registered under an exactly
matching key when one exists (keys being unique, as in a Python dict);
otherwise the strategy of the first registered key that is a prefix of the
endpoint (which indeed is such a prefix); otherwise — in particular whenever
no registered key is a prefix of the endpoint — the default strategy. -/
theorem claim_C9 {σ : Type} (regs : List (RateLimitManager.Endpoint × σ)) (d : σ)
    (e : RateLimitManager.Endpoint)
    (hnodup : (regs.map Prod.fst).Nodup) :
    (∀ strat, (e, strat) ∈ regs → RateLimitManager.get_strategy regs d e = strat)
      ∧ ((¬ ∃ strat, (e, strat) ∈ regs) →
          ∀ p, regs.find? (fun q => RateLimitManager.startsWithKey e q.1) = some p →
            RateLimitManager.get_strategy regs d e = p.2
              ∧ RateLimitManager.startsWithKey e p.1 = true)
      ∧ ((∀ p ∈ regs, RateLimitManager.startsWithKey e p.1 = false) →
          RateLimitManager.get_strategy regs d e = d) := by
  refine ⟨?_, ?_, ?_⟩
  · intro strat hmem
    have hfind : ∃ q, regs.find? (fun q => decide (q.1 = e)) = some q := by
      rcases hq : regs.find? (fun q => decide (q.1 = e)) with _ | q
      · exfalso
        have := List.find?_eq_none.mp hq (e, strat) hmem
        simp at this
      · exact ⟨q, hq⟩
    obtain ⟨q, hq⟩ := hfind
    have hq1 : q.1 = e := by
      have := List.find?_some hq
      simpa using this
    have hqmem : q ∈ regs := List.mem_of_find?_eq_some hq
    have : q = (e, strat) := keys_nodup_eq regs hnodup q (e, strat) hqmem hmem (by simpa using hq1)
    rw [RateLimitManager.get_strategy, hq, this]
  · intro hnoexact p hp
    have hexact : regs.find? (fun q => decide (q.1 = e)) = none := by
      rw [List.find?_eq_none]
      intro x hx hxe
      apply hnoexact
      refine ⟨x.2, ?_⟩
      have : x.1 = e := by simpa using hxe
      rw [← this]
      exact hx
    constructor
    · rw [RateLimitManager.get_strategy, hexact, hp]
    · have := List.find?_some hp
      simpa using this
  · intro hall
    have hexact : regs.find? (fun q => decide (q.1 = e)) = none := by
      rw [List.find?_eq_none]
      intro x hx hxe
      have hx1 : x.1 = e := by simpa using hxe
      have := hall x hx
      rw [hx1, startsWithKey_self e] at this
      exact Bool.noConfusion this
    have hpre : regs.find? (fun q => RateLimitManager.startsWithKey e q.1) = none := by
      rw [List.find?_eq_none]
      intro x hx hxe
      rw [hall x hx] at hxe
      exact Bool.noConfusion hxe
    rw [RateLimitManager.get_strategy, hexact, hpre]

/-- C9 witness. -/
theorem claim_C9_witness :
    RateLimitManager.get_strategy [([ 'a' ], (5 : Nat))] 0 [ 'b' ] = 0 :=
  (claim_C9 [([ 'a' ], 5)] 0 [ 'b' ] (by simp)).2.2 (by decide)

/-! ## Lemmas: identifier and status views of the final stores -/

theorem idAt_set_ne (ros : ResultStore) (k j : Nat) (x : Option OperationResult)
    (h : k ≠ j) : idAt (ros.set k x) j = idAt ros j := by
  rw [idAt, List.get?_set_ne _ _ h, idAt]

theorem storeOf_idAt_ok' (rest : List BulkOperation) (ros : ResultStore) (k : Nat)
    (op : BulkOperation) (hlen : rest.length ≤ ros.length)
    (hk : rest.get? k = some op) (hok : op.action.isOk = true) :
    idAt (storeOf rest 0 ros) k = some op.operation_id := by
  have hmain := storeOf_get?_at rest k 0 ros op (by omega) hk
  rw [show (0 : Nat) + k = k from by omega] at hmain
  cases hact : op.action with
  | ok v => rw [idAt, hmain]; simp [hact]
  | error e => rw [hact] at hok; exact absurd hok (by simp [Except.isOk, Except.toBool])

theorem storeOf_statusAt_ok' (rest : List BulkOperation) (ros : ResultStore) (k : Nat)
    (op : BulkOperation) (hlen : rest.length ≤ ros.length)
    (hk : rest.get? k = some op) (hok : op.action.isOk = true) :
    statusAt (storeOf rest 0 ros) k = some OperationStatus.success := by
  have hmain := storeOf_get?_at rest k 0 ros op (by omega) hk
  rw [show (0 : Nat) + k = k from by omega] at hmain
  cases hact : op.action with
  | ok v => rw [statusAt, hmain]; simp [hact]
  | error e => rw [hact] at hok; exact absurd hok (by simp [Except.isOk, Except.toBool])

theorem storeAllOf_idAt (ops : List BulkOperation) (k : Nat) (op : BulkOperation)
    (hk : ops.get? k = some op) :
    idAt (storeAllOf ops 0 (List.replicate ops.length none)) k
      = some op.operation_id := by
  have hmain := storeAllOf_get?_at ops k 0 (List.replicate ops.length none) op (by simp) hk
  rw [show (0 : Nat) + k = k from by omega] at hmain
  cases hact : op.action with
  | ok v => rw [idAt, hmain]; simp [hact]
  | error e => rw [idAt, hmain]; simp [hact]

theorem syncResults_ids (st : SyncState) :
    resultIds (syncResults st) = st.resultsIdx.map (fun j => idAt st.resultOf j) := by
  rw [syncResults, resultIds, List.map_map]
  rfl

theorem range'_map_idAt (R : ResultStore) :
    ∀ (rest : List BulkOperation) (i : Nat),
      (∀ k op, rest.get? k = some op → idAt R (i + k) = some op.operation_id) →
      (List.range' i rest.length).map (fun j => idAt R j)
        = rest.map (fun op => some op.operation_id) := by
  intro rest
  induction rest with
  | nil => intro i _; simp
  | cons op rest ih =>
    intro i h
    have h0 := h 0 op (by simp) 
    simp only [Nat.add_zero] at h0
    have htail : ∀ k op', rest.get? k = some op' → idAt R ((i + 1) + k) = some op'.operation_id := by
      intro k op' hk
      have harr : i + (k + 1) = (i + 1) + k := by omega
      have := h (k + 1) op' (by simpa using hk)
      rwa [harr] at this
    simp [List.range'_succ, h0, ih (i + 1) htail]

theorem takeWhile_get? (p : BulkOperation → Bool) (l : List BulkOperation) (j : Nat)
    (hj : j < (l.takeWhile p).length) :
    l.get? j = (l.takeWhile p).get? j := by
  obtain ⟨t, ht⟩ := List.takeWhile_prefix p (l := l)
  conv_lhs => rw [← ht]
  rw [List.get?_append hj]

/-! ## Claim C1 -/

/-- C1 counterexample: the claim says `execute_sync` always returns one Result
per submitted operation; with rollback enabled and a single failing operation,
the loop breaks before the `results.append` line, so the returned list is
empty instead of having length 1. -/
theorem claim_C1_counterexample :
    syncResults (execSync true false [⟨0, .error 5, none⟩]) = []
      ∧ (syncResults (execSync true false [⟨0, .error 5, none⟩])).length ≠ 1 :=
  ⟨by decide, by decide⟩

/-- C1 amended: `execute_async` always returns exactly one Result per
submitted operation, ordered by submission index (entry `j` carries the id of
operation `j`), and so does `execute_sync` when rollback is disabled; but
`execute_sync` with rollback enabled stops at the first failure and returns
only the Results of the operations that succeeded before it — the failing
operation's Result (and everything after it) is missing from the returned
list. -/
theorem claim_C1_amended (ops : List BulkOperation) (rb onP : Bool) :
    resultIds (asyncResults (execAsync rb onP ops))
        = ops.map (fun op => some op.operation_id)
      ∧ resultIds (syncResults (execSync false onP ops))
        = ops.map (fun op => some op.operation_id)
      ∧ resultIds (syncResults (execSync true onP ops))
        = (ops.takeWhile (fun op => op.action.isOk)).map
            (fun op => some op.operation_id) := by
  refine ⟨?_, ?_, ?_⟩
  · -- concurrent path
    have hid : ∀ j, idAt (execAsync rb onP ops).resultOf j
        = idAt (storeOf ops 0 (List.replicate ops.length none)) j := by
      intro j
      rw [execAsync_resultOf]
      split
      · exact rollbackPass_idAt _ _ _ j
      · rfl
    rw [asyncResults_ids]
    simp only [hid]
    rw [execAsync_gather]
    exact gatherOf_map_ids _ ops 0
      (fun k op hk hok => by
        simpa using storeOf_idAt_ok' ops (List.replicate ops.length none) k op
          (by simp) hk hok)
  · -- sequential path, rollback disabled
    rw [syncResults_ids, execSync, execSyncGo_false_resultsIdx, execSyncGo_false_resultOf]
    simp only [List.nil_append]
    exact range'_map_idAt _ ops 0
      (fun k op hk => by simpa using storeAllOf_idAt ops k op hk)
  · -- sequential path, rollback enabled
    rw [syncResults_ids, execSync, execSyncGo_true_spec]
    by_cases hall : (ops.all fun op => op.action.isOk) = true
    · rw [if_pos hall]
      simp only [List.nil_append]
      rw [takeWhile_eq_self_of_all ops hall]
      exact range'_map_idAt _ ops 0
        (fun k op hk => by
          have hok : op.action.isOk = true := by
            have := List.all_eq_true.mp hall op (List.get?_mem hk)
            simpa using this
          simpa using storeOf_idAt_ok' ops (List.replicate ops.length none) k op
            (by simp) hk hok)
    · rw [if_neg hall]
      simp only [List.nil_append]
      refine range'_map_idAt _ (ops.takeWhile (fun op => op.action.isOk)) 0 ?_
      intro k op hk
      simp only [Nat.zero_add]
      have hklt : k < (ops.takeWhile (fun op => op.action.isOk)).length := by
        by_contra hge
        rw [List.get?_eq_none.mpr (by omega)] at hk
        exact Option.noConfusion hk
      have hok : op.action.isOk = true := by
        simpa using List.mem_takeWhile_imp (List.get?_mem hk)
      rw [rollbackPass_idAt]
      rw [idAt_set_ne _ _ _ _ (by omega)]
      exact storeOf_idAt_ok' (ops.takeWhile (fun op => op.action.isOk))
        (List.replicate ops.length none) k op
        (by
          have := (List.takeWhile_prefix (fun op => op.action.isOk) (l := ops)).length_le
          simpa using this)
        hk hok

/-! ## Claim C8 -/

/-- C8 counterexample: the claim says the progress observer is invoked after
every completed operation, including failures; with a single failing operation
(concurrent path, observer supplied) the observer is never invoked. -/
theorem claim_C8_counterexample :
    (execAsync false true [⟨0, .error 3, none⟩]).progressCalls = []
      ∧ (execAsync false true [⟨0, .error 3, none⟩]).progressCalls.length ≠ 1 :=
  ⟨by decide, by decide⟩

/-- C8 amended: with a progress observer supplied, the observer is invoked
exactly once after each SUCCESSFUL operation, receiving `(completed_count,
total_count)` with the counts increasing 1, 2, ... per success; it is never
invoked for a failed operation, in either path.  (In the sequential path with
rollback enabled only the successes before the first failure are counted.) -/
theorem claim_C8_amended (ops : List BulkOperation) (rb : Bool) :
    (execAsync rb true ops).progressCalls
        = (List.range' 1 (countOk ops)).map (fun m => (m, ops.length))
      ∧ (execSync false true ops).progressCalls
        = (List.range' 1 (countOk ops)).map (fun m => (m, ops.length))
      ∧ (execSync true true ops).progressCalls
        = (List.range' 1 (ops.takeWhile (fun op => op.action.isOk)).length).map
            (fun m => (m, ops.length)) := by
  refine ⟨?_, ?_, ?_⟩
  · rw [execAsync_progress, if_pos rfl, progressOf_eq]
  · rw [execSync, execSyncGo_false_progress]
    simp [progressOf_eq]
  · rw [execSync, execSyncGo_true_spec]
    by_cases hall : (ops.all fun op => op.action.isOk) = true
    · rw [if_pos hall]
      have hco : countOk ops = ops.length := by
        rw [countOk, List.filter_eq_self.mpr]
        intro op hop
        have := List.all_eq_true.mp hall op hop
        simpa using this
      rw [takeWhile_eq_self_of_all ops hall]
      simp [progressOf_eq, hco]
    · rw [if_neg hall]
      simp [progressOf_eq, countOk_takeWhile]

/-! ## More store lemmas (untouched slots, lengths) -/

theorem statusAt_set_ne (ros : ResultStore) (k j : Nat) (x : Option OperationResult)
    (h : k ≠ j) : statusAt (ros.set k x) j = statusAt ros j := by
  rw [statusAt, List.get?_set_ne _ _ h, statusAt]

theorem updateStatus_get?_ne (ros : ResultStore) (i j : Nat) (stt : OperationStatus)
    (h : i ≠ j) : (updateStatus ros i stt).get? j = ros.get? j := by
  unfold updateStatus
  split
  · rw [List.get?_set_ne _ _ h]
  · rfl

theorem foldl_rollbackStep_get?_not_mem (ops : List BulkOperation) :
    ∀ (l : List Nat) (ros : ResultStore) (acc : List Nat) (j : Nat),
      (∀ i ∈ l, i ≠ j) →
      ((l.foldl (rollbackStep ops) (ros, acc)).1).get? j = ros.get? j := by
  intro l
  induction l with
  | nil => intro ros acc j _; rfl
  | cons i l ih =>
    intro ros acc j hl
    rw [List.foldl_cons]
    rw [show rollbackStep ops (ros, acc) i
        = ((rollbackStep ops (ros, acc) i).1, (rollbackStep ops (ros, acc) i).2) from rfl]
    rw [ih _ _ j (fun x hx => hl x (List.mem_cons_of_mem i hx))]
    rcases rollbackStep_fst_cases ops ros acc i with hstep | hstep <;> rw [hstep]
    exact updateStatus_get?_ne ros i j _ (hl i (List.mem_cons_self i l))

theorem rollbackPass_get?_not_mem (ops : List BulkOperation) (ros : ResultStore)
    (completed : List Nat) (j : Nat) (h : ∀ i ∈ completed, i ≠ j) :
    ((rollbackPass ops ros completed).1).get? j = ros.get? j :=
  foldl_rollbackStep_get?_not_mem ops completed.reverse ros [] j
    (fun i hi => h i (List.mem_reverse.mp hi))

theorem foldl_rollbackStep_length (ops : List BulkOperation) :
    ∀ (l : List Nat) (ros : ResultStore) (acc : List Nat),
      ((l.foldl (rollbackStep ops) (ros, acc)).1).length = ros.length := by
  intro l
  induction l with
  | nil => intro ros acc; rfl
  | cons i l ih =>
    intro ros acc
    rw [List.foldl_cons]
    rw [show rollbackStep ops (ros, acc) i
        = ((rollbackStep ops (ros, acc) i).1, (rollbackStep ops (ros, acc) i).2) from rfl]
    rw [ih]
    rcases rollbackStep_fst_cases ops ros acc i with hstep | hstep <;> rw [hstep]
    exact updateStatus_length ros i _

theorem rollbackPass_length (ops : List BulkOperation) (ros : ResultStore)
    (completed : List Nat) :
    ((rollbackPass ops ros completed).1).length = ros.length :=
  foldl_rollbackStep_length ops completed.reverse ros []

theorem storeOf_get?_ge (rest : List BulkOperation) :
    ∀ (i : Nat) (ros : ResultStore) (j : Nat), i + rest.length ≤ j →
      (storeOf rest i ros).get? j = ros.get? j := by
  induction rest with
  | nil => intro i ros j _; simp [storeOf]
  | cons op rest ih =>
    intro i ros j hj
    simp only [List.length_cons] at hj
    cases hact : op.action with
    | ok v =>
      rw [storeOf, hact, ih (i + 1) _ j (by omega), List.get?_set_ne _ _ (by omega)]
    | error e =>
      rw [storeOf, hact]
      exact ih (i + 1) ros j (by omega)

/-! ## Claim C2 -/

/-- C2: rollback behaviour.  When rollback is disabled no compensating action
is ever invoked (either path).  When rollback is enabled and at least one
operation fails, the executor invokes exactly the compensating actions of the
completed (successfully executed) operations, in reverse completion order,
skipping operations without one; each such action is invoked exactly once; and
a compensating action's own failure does not abort the rollback of the
remaining ones (the invocation trace is the full reverse-completion filter
regardless of which rollbacks succeed). -/
theorem claim_C2 (ops : List BulkOperation) (onP : Bool) :
    (execAsync false onP ops).rollbackCalls = []
      ∧ (execSync false onP ops).rollbackCalls = []
      ∧ ((ops.any fun op => !op.action.isOk) = true →
          (execAsync true onP ops).rollbackCalls
              = (execAsync true onP ops).completed.reverse.filter (hasRB ops)
            ∧ (∀ i ∈ (execAsync true onP ops).completed, hasRB ops i = true →
                (execAsync true onP ops).rollbackCalls.count i = 1)
            ∧ (∀ i ∈ (execAsync true onP ops).rollbackCalls,
                i ∈ (execAsync true onP ops).completed ∧ hasRB ops i = true)
            ∧ (execSync true onP ops).rollbackCalls
              = (execSync true onP ops).completed.reverse.filter (hasRB ops)) := by
  refine ⟨?_, ?_, ?_⟩
  · rw [execAsync_rollbackCalls]
    simp
  · rw [execSync, execSyncGo_false_rollbackCalls]
  · intro hfail
    have hcalls : (execAsync true onP ops).rollbackCalls
        = (completedOf ops 0).reverse.filter (hasRB ops) := by
      rw [execAsync_rollbackCalls, if_pos (by rw [hfail]; rfl)]
    have hcomp : (execAsync true onP ops).completed = completedOf ops 0 :=
      execAsync_completed true onP ops
    refine ⟨?_, ?_, ?_, ?_⟩
    · rw [hcalls, hcomp]
    · intro i hic hirb
      rw [hcalls]
      apply List.count_eq_one_of_mem
      · exact (List.nodup_reverse.mpr (completedOf_nodup ops 0)).filter _
      · exact List.mem_filter.mpr
          ⟨List.mem_reverse.mpr (by rwa [hcomp] at hic), hirb⟩
    · intro i hi
      rw [hcalls] at hi
      obtain ⟨hirev, hirb⟩ := List.mem_filter.mp hi
      exact ⟨by rw [hcomp]; exact List.mem_reverse.mp hirev, hirb⟩
    · have hall : (ops.all fun op => op.action.isOk) = false := by
        obtain ⟨x, hx, hnx⟩ := List.any_eq_true.mp hfail
        rcases hb : ops.all fun op => op.action.isOk with _ | _
        · rfl
        · exfalso
          have := List.all_eq_true.mp hb x hx
          simp [this] at hnx
      rw [execSync, execSyncGo_true_spec, if_neg (by rw [hall]; simp)]
      simp only [List.nil_append]
      rw [rollbackPass_snd]

/-- C2 witness. -/
theorem claim_C2_witness :
    (execAsync true false
        [⟨0, .ok 1, some true⟩, ⟨1, .error 2, none⟩,
         ⟨2, .ok 3, some true⟩]).rollbackCalls.count 0 = 1 :=
  ((claim_C2 [⟨0, .ok 1, some true⟩, ⟨1, .error 2, none⟩, ⟨2, .ok 3, some true⟩]
      false).2.2 (by decide)).2.1 0 (by decide) (by decide)

/-! ## Lemmas: slot contents after `execute_async` -/

theorem execAsync_idAt_ok (rb onP : Bool) (ops : List BulkOperation) (j : Nat)
    (op : BulkOperation) (hj : ops.get? j = some op) (hok : op.action.isOk = true) :
    idAt (execAsync rb onP ops).resultOf j = some op.operation_id := by
  rw [execAsync_resultOf]
  split
  · rw [rollbackPass_idAt]
    exact storeOf_idAt_ok' ops _ j op (by simp) hj hok
  · exact storeOf_idAt_ok' ops _ j op (by simp) hj hok

theorem execAsync_statusAt_ok (rb onP : Bool) (ops : List BulkOperation) (j : Nat)
    (op : BulkOperation) (hj : ops.get? j = some op) (hok : op.action.isOk = true) :
    statusAt (execAsync rb onP ops).resultOf j = some OperationStatus.success
      ∨ statusAt (execAsync rb onP ops).resultOf j = some OperationStatus.rolledBack := by
  have hbase := storeOf_statusAt_ok' ops (List.replicate ops.length none) j op (by simp) hj hok
  rw [execAsync_resultOf]
  split
  · rcases rollbackPass_statusAt ops _ (completedOf ops 0) j with h | h <;> rw [h]
    · left; exact hbase
    · right; rfl
  · left; exact hbase

theorem execAsync_join_error (rb onP : Bool) (ops : List BulkOperation) (j : Nat)
    (op : BulkOperation) (hj : ops.get? j = some op) (hnok : op.action.isOk = false) :
    ((execAsync rb onP ops).resultOf.get? j).join = none := by
  have hbase : (storeOf ops 0 (List.replicate ops.length none)).get? j = some none :=
    storeOf_get?_error ops j op hj hnok
  have hid : idAt (execAsync rb onP ops).resultOf j = none := by
    rw [execAsync_resultOf]
    split
    · rw [rollbackPass_idAt, idAt, hbase]; rfl
    · rw [idAt, hbase]; rfl
  exact Option.map_eq_none'.mp hid

theorem execAsync_statusAt_not_failed (rb onP : Bool) (ops : List BulkOperation) (n : Nat) :
    statusAt (execAsync rb onP ops).resultOf n ≠ some OperationStatus.failed := by
  have hbase : statusAt (storeOf ops 0 (List.replicate ops.length none)) n
      ≠ some OperationStatus.failed := by
    rcases hn : ops.get? n with _ | op
    · have hge : ops.length ≤ n := List.get?_eq_none.mp hn
      rw [statusAt, storeOf_get?_ge ops 0 _ n (by omega)]
      rw [replicate_store_get?]
      split <;> simp
    · cases hok : op.action.isOk with
      | true => rw [storeOf_statusAt_ok' ops _ n op (by simp) hn hok]; simp
      | false =>
        rw [statusAt, storeOf_get?_error ops n op hn hok]
        simp
  rw [execAsync_resultOf]
  split
  · rcases rollbackPass_statusAt ops _ (completedOf ops 0) n with h | h <;> rw [h]
    · exact hbase
    · simp
  · exact hbase

/-! ## Claim C5 -/

/-- C5 counterexample: the claim says every executed operation's `result`
field is set afterwards; in the concurrent path a failed action returns a
fresh Failed result WITHOUT assigning `operation.result` (operations.py line
163), so the field stays absent and `get_summary` counts no failure even
though the single operation executed and failed. -/
theorem claim_C5_counterexample :
    ((execAsync false false [⟨0, .error 4, none⟩]).resultOf.get? 0).join = none
      ∧ (get_summary [⟨(0 : Nat), .error 4, none⟩]
          (execAsync false false [⟨0, .error 4, none⟩]).resultOf
          (execAsync false false [⟨0, .error 4, none⟩]).completed.length).failed = 0
      ∧ asyncResults (execAsync false false [⟨0, .error 4, none⟩])
          = [some ⟨0, .failed, none, some 4⟩] :=
  ⟨by decide, by decide, by decide⟩

/-- C5 amended: in the sequential path every executed operation's result field
is set (Success with the value, or Failed with the error; under rollback the
executed prefix may become RolledBack and execution stops at the first
failure).  In the concurrent path only SUCCESSFUL operations get their result
field assigned (Success, possibly later RolledBack); a failed operation's
field stays absent — its Failed result exists only in the returned list — so
the summary's failed count misses every concurrent-path failure (it is always
zero after `execute_async`). -/
theorem claim_C5_amended (ops : List BulkOperation) (rb onP : Bool) (j : Nat)
    (op : BulkOperation) (hj : ops.get? j = some op) :
    ((op.action.isOk = true →
        ∃ r, ((execAsync rb onP ops).resultOf.get? j).join = some r
          ∧ r.operation_id = op.operation_id
          ∧ (r.status = OperationStatus.success ∨ r.status = OperationStatus.rolledBack))
      ∧ (op.action.isOk = false →
        ((execAsync rb onP ops).resultOf.get? j).join = none))
      ∧ (get_summary ops (execAsync rb onP ops).resultOf
          (execAsync rb onP ops).completed.length).failed = 0
      ∧ (∃ r, ((execSync false onP ops).resultOf.get? j).join = some r
          ∧ r.operation_id = op.operation_id
          ∧ r.status = (if op.action.isOk then OperationStatus.success
              else OperationStatus.failed))
      ∧ (j < (ops.takeWhile (fun o => o.action.isOk)).length →
          ∃ r, ((execSync true onP ops).resultOf.get? j).join = some r
            ∧ r.operation_id = op.operation_id
            ∧ (r.status = OperationStatus.success ∨ r.status = OperationStatus.rolledBack))
      ∧ (j = (ops.takeWhile (fun o => o.action.isOk)).length ∧ op.action.isOk = false →
          ∃ r, ((execSync true onP ops).resultOf.get? j).join = some r
            ∧ r.operation_id = op.operation_id
            ∧ r.status = OperationStatus.failed)
      ∧ ((ops.takeWhile (fun o => o.action.isOk)).length < j →
          ((execSync true onP ops).resultOf.get? j).join = none) := by
  have hjlt : j < ops.length := by
    by_contra hge
    rw [List.get?_eq_none.mpr (by omega)] at hj
    exact Option.noConfusion hj
  refine ⟨⟨?_, ?_⟩, ?_, ?_, ?_, ?_, ?_⟩
  · -- concurrent, success
    intro hok
    obtain ⟨r, hr, hrid⟩ := Option.map_eq_some'.mp (execAsync_idAt_ok rb onP ops j op hj hok)
    refine ⟨r, hr, hrid, ?_⟩
    have hst : statusAt (execAsync rb onP ops).resultOf j = some r.status := by
      rw [statusAt, hr]; simp
    rcases execAsync_statusAt_ok rb onP ops j op hj hok with h | h <;> rw [hst] at h
    · exact Or.inl (Option.some.inj h)
    · exact Or.inr (Option.some.inj h)
  · exact execAsync_join_error rb onP ops j op hj
  · -- summary: no Failed status ever stored in the concurrent path
    rw [get_summary]
    have hnil : List.filter (fun r => decide (r.status = OperationStatus.failed))
        ((execAsync rb onP ops).resultOf.filterMap id) = [] := by
      rw [List.filter_eq_nil]
      intro r hr
      simp only [decide_eq_true_eq]
      obtain ⟨a, ha, hida⟩ := List.mem_filterMap.mp hr
      have ha' : some r ∈ (execAsync rb onP ops).resultOf := by
        simp only [id_eq] at hida
        rwa [hida] at ha
      obtain ⟨n, hn⟩ := List.mem_iff_get?.mp ha'
      have hst : statusAt (execAsync rb onP ops).resultOf n = some r.status := by
        rw [statusAt, hn]; rfl
      intro hf
      apply execAsync_statusAt_not_failed rb onP ops n
      rw [hst, hf]
    simp only [hnil]
    rfl
  · -- sequential, rollback disabled
    have hmain := storeAllOf_get?_at ops j 0 (List.replicate ops.length none) op (by simp) hj
    rw [show (0 : Nat) + j = j from by omega] at hmain
    rw [execSync, execSyncGo_false_resultOf]
    cases hact : op.action with
    | ok v =>
      refine ⟨⟨op.operation_id, .success, some v, none⟩, by rw [hmain]; simp [hact], rfl, ?_⟩
      rw [if_pos (by rfl)]
    | error e =>
      refine ⟨⟨op.operation_id, .failed, none, some e⟩, by rw [hmain]; simp [hact], rfl, ?_⟩
      rw [if_neg (by simp [Except.isOk, Except.toBool])]
  · -- sequential, rollback enabled, before the first failure
    intro hjk
    have hpre : (ops.takeWhile (fun o => o.action.isOk)).get? j = some op := by
      rw [← takeWhile_get? _ ops j hjk]
      exact hj
    have hok : op.action.isOk = true := by
      simpa using List.mem_takeWhile_imp (List.get?_mem hpre)
    have hprelen : (ops.takeWhile (fun o => o.action.isOk)).length
        ≤ (List.replicate ops.length (none : Option OperationResult)).length := by
      have := (List.takeWhile_prefix (fun o => o.action.isOk) (l := ops)).length_le
      simpa using this
    rw [execSync, execSyncGo_true_spec]
    by_cases hall : (ops.all fun op => op.action.isOk) = true
    · rw [if_pos hall]
      obtain ⟨r, hr, hrid⟩ := Option.map_eq_some'.mp
        (storeOf_idAt_ok' ops (List.replicate ops.length none) j op (by simp) hj hok)
      refine ⟨r, hr, hrid, Or.inl ?_⟩
      have hst : statusAt (storeOf ops 0 (List.replicate ops.length none)) j
          = some r.status := by rw [statusAt, hr]; simp
      have := storeOf_statusAt_ok' ops (List.replicate ops.length none) j op (by simp) hj hok
      rw [hst] at this
      exact Option.some.inj this
    · rw [if_neg hall]
      simp only [List.nil_append]
      have hid : idAt (rollbackPass ops
          ((storeOf (ops.takeWhile fun op => op.action.isOk) 0
              (List.replicate ops.length none)).set
            (0 + (ops.takeWhile fun op => op.action.isOk).length)
            (failResOf ops (ops.takeWhile fun op => op.action.isOk).length))
          (List.range' 0 (ops.takeWhile fun op => op.action.isOk).length)).1 j
          = some op.operation_id := by
        rw [rollbackPass_idAt, idAt_set_ne _ _ _ _ (by omega)]
        exact storeOf_idAt_ok' _ _ j op hprelen hpre hok
      obtain ⟨r, hr, hrid⟩ := Option.map_eq_some'.mp hid
      refine ⟨r, hr, hrid, ?_⟩
      have hst : statusAt (rollbackPass ops
          ((storeOf (ops.takeWhile fun op => op.action.isOk) 0
              (List.replicate ops.length none)).set
            (0 + (ops.takeWhile fun op => op.action.isOk).length)
            (failResOf ops (ops.takeWhile fun op => op.action.isOk).length))
          (List.range' 0 (ops.takeWhile fun op => op.action.isOk).length)).1 j
          = some r.status := by rw [statusAt, hr]; simp
      have hsucc := storeOf_statusAt_ok' (ops.takeWhile fun op => op.action.isOk)
        (List.replicate ops.length none) j op hprelen hpre hok
      rcases rollbackPass_statusAt ops _ _ j with h | h <;> rw [hst] at h
      · rw [statusAt_set_ne _ _ _ _ (by omega), hsucc] at h
        exact Or.inl (Option.some.inj h)
      · exact Or.inr (Option.some.inj h)
  · -- sequential, rollback enabled, the failing operation itself
    rintro ⟨hjk, hnok⟩
    have hall : (ops.all fun op => op.action.isOk) = false := by
      rcases hb : ops.all fun op => op.action.isOk with _ | _
      · rfl
      · exfalso
        have := List.all_eq_true.mp hb op (List.get?_mem hj)
        simp only [this] at hnok
        exact Bool.noConfusion hnok
    rw [execSync, execSyncGo_true_spec, if_neg (by rw [hall]; simp)]
    simp only [List.nil_append]
    rw [rollbackPass_get?_not_mem ops _ _ j
      (by
        intro i hi
        have := List.mem_range'_1.mp hi
        omega)]
    have hsetlen : j < ((storeOf (ops.takeWhile fun op => op.action.isOk) 0
        (List.replicate ops.length none))).length := by
      rw [storeOf_length]
      simpa using hjlt
    rw [show (0 : Nat) + (ops.takeWhile fun op => op.action.isOk).length
        = (ops.takeWhile fun op => op.action.isOk).length from by omega]
    rw [← hjk, List.get?_set_eq_of_lt _ hsetlen]
    cases hact : op.action with
    | ok v =>
      exfalso
      simp only [hact, Except.isOk, Except.toBool] at hnok
      exact Bool.noConfusion hnok
    | error e =>
      refine ⟨⟨op.operation_id, .failed, none, some e⟩, ?_, rfl, rfl⟩
      have hj' : ops[j]? = some op := by rw [← List.get?_eq_getElem?]; exact hj
      have hfr : failResOf ops j = some ⟨op.operation_id, .failed, none, some e⟩ := by
        simp [failResOf, hj', hact]
      rw [hfr]
      rfl
  · -- sequential, rollback enabled, never executed
    intro hkj
    rw [execSync, execSyncGo_true_spec]
    by_cases hall : (ops.all fun op => op.action.isOk) = true
    · exfalso
      rw [takeWhile_eq_self_of_all ops hall] at hkj
      omega
    · rw [if_neg hall]
      simp only [List.nil_append]
      rw [rollbackPass_get?_not_mem ops _ _ j
        (by
          intro i hi
          have := List.mem_range'_1.mp hi
          omega)]
      rw [List.get?_set_ne _ _ (by omega)]
      rw [storeOf_get?_ge _ _ _ j (by simpa using Nat.le_of_lt hkj)]
      rw [replicate_store_get?]
      split <;> rfl

/-- C5 witness. -/
theorem claim_C5_witness :
    (get_summary [⟨(0 : Nat), .ok 1, none⟩]
        (execAsync false false [⟨0, .ok 1, none⟩]).resultOf
        (execAsync false false [⟨0, .ok 1, none⟩]).completed.length).failed = 0 :=
  (claim_C5_amended [⟨0, .ok 1, none⟩] false false 0 ⟨0, .ok 1, none⟩ rfl).2.1

/-! ## Lemmas: strategy state invariants -/

theorem length_dropWhile_le' {α : Type} (p : α → Bool) (l : List α) :
    (l.dropWhile p).length ≤ l.length := by
  induction l with
  | nil => simp
  | cons a l ih =>
    rw [List.dropWhile_cons]
    split
    · exact Nat.le_succ_of_le ih
    · simp

theorem fw_step_inv (s : FixedWindowStrategy) (op : FWOp)
    (h : s.requests.length ≤ s.max_requests) :
    (s.step op).requests.length ≤ (s.step op).max_requests
      ∧ (s.step op).max_requests = s.max_requests := by
  cases op with
  | tryAcq now k =>
    rw [FixedWindowStrategy.step, FixedWindowStrategy.acquire]
    split
    next hcond =>
      refine ⟨?_, rfl⟩
      simpa [FixedWindowStrategy.cleanup] using hcond
    next =>
      exact ⟨le_trans (length_dropWhile_le' _ _) h, rfl⟩
  | waitT now =>
    rw [FixedWindowStrategy.step, FixedWindowStrategy.wait_time]
    have hgoal : ((s.cleanup now).requests).length ≤ (s.cleanup now).max_requests :=
      le_trans (length_dropWhile_le' _ _) h
    split
    · exact ⟨hgoal, rfl⟩
    · split <;> exact ⟨hgoal, rfl⟩

theorem fw_run_inv (m : Nat) (w : ℚ) (l : List FWOp) :
    ((FixedWindowStrategy.mk' m w).run l).requests.length ≤ m := by
  suffices h : ∀ (l : List FWOp) (s : FixedWindowStrategy),
      s.requests.length ≤ s.max_requests →
      (s.run l).requests.length ≤ (s.run l).max_requests
        ∧ (s.run l).max_requests = s.max_requests by
    have hx := h l (FixedWindowStrategy.mk' m w) (by simp [FixedWindowStrategy.mk'])
    exact hx.1.trans hx.2.le
  intro l
  induction l with
  | nil => intro s h; exact ⟨h, rfl⟩
  | cons op l ih =>
    intro s h
    have hstep := fw_step_inv s op h
    have hrec := ih (s.step op) hstep.1
    rw [show s.run (op :: l) = (s.step op).run l from rfl]
    exact ⟨hrec.1, hrec.2.trans hstep.2⟩

theorem tb_step_inv (s : TokenBucketStrategy) (op : TBOp)
    (hr : 0 ≤ s.rate) (h0 : 0 ≤ s.tokens) (hc : s.tokens ≤ (s.capacity : ℚ))
    (ht : s.last_update ≤ op.now) :
    0 ≤ (s.step op).tokens ∧ (s.step op).tokens ≤ ((s.step op).capacity : ℚ)
      ∧ (s.step op).rate = s.rate ∧ (s.step op).capacity = s.capacity := by
  have hcap : (0 : ℚ) ≤ (s.capacity : ℚ) := le_trans h0 hc
  have hmul : 0 ≤ (op.now - s.last_update) * s.rate :=
    mul_nonneg (by simpa [sub_nonneg] using ht) hr
  have hre0 : 0 ≤ (s.refill op.now).tokens := by
    rw [TokenBucketStrategy.refill]
    exact le_min hcap (by linarith)
  have hrec : (s.refill op.now).tokens ≤ (s.capacity : ℚ) := by
    rw [TokenBucketStrategy.refill]
    exact min_le_left _ _
  cases op with
  | tryAcq now k =>
    simp only [TBOp.now] at hre0 hrec
    rw [TokenBucketStrategy.step, TokenBucketStrategy.acquire]
    split
    next hcond =>
      have hk : (0 : ℚ) ≤ (k : ℚ) := Nat.cast_nonneg k
      exact ⟨by dsimp only; linarith,
        by dsimp only; rw [show (s.refill now).capacity = s.capacity from rfl]; linarith,
        rfl, rfl⟩
    next => exact ⟨hre0, hrec, rfl, rfl⟩
  | waitT now =>
    simp only [TBOp.now] at hre0 hrec
    rw [TokenBucketStrategy.step, TokenBucketStrategy.wait_time]
    split <;> exact ⟨hre0, hrec, rfl, rfl⟩

theorem tb_run_inv (rate : ℚ) (capacity : ℤ) (t0 : ℚ) (l : List TBOp)
    (hr : 0 ≤ rate) (hc : 0 ≤ capacity)
    (ht : (TokenBucketStrategy.mk' rate capacity t0).timesOk l) :
    0 ≤ ((TokenBucketStrategy.mk' rate capacity t0).run l).tokens
      ∧ ((TokenBucketStrategy.mk' rate capacity t0).run l).tokens ≤ (capacity : ℚ) := by
  suffices h : ∀ (l : List TBOp) (s : TokenBucketStrategy),
      0 ≤ s.rate → 0 ≤ s.tokens → s.tokens ≤ (s.capacity : ℚ) → s.timesOk l →
      0 ≤ (s.run l).tokens ∧ (s.run l).tokens ≤ ((s.run l).capacity : ℚ)
        ∧ (s.run l).capacity = s.capacity by
    have hx := h l (TokenBucketStrategy.mk' rate capacity t0) hr
      (by simp [TokenBucketStrategy.mk']; exact_mod_cast hc)
      (by simp [TokenBucketStrategy.mk'])
      ht
    refine ⟨hx.1, ?_⟩
    have h2 := hx.2.1
    rw [hx.2.2] at h2
    exact h2
  intro l
  induction l with
  | nil => intro s _ h2 h3 _; exact ⟨h2, h3, rfl⟩
  | cons op l ih =>
    intro s h1 h2 h3 hok
    obtain ⟨htime, hrest⟩ := hok
    have hstep := tb_step_inv s op h1 h2 h3 htime
    have hrec := ih (s.step op) (by rw [hstep.2.2.1]; exact h1) hstep.1
      hstep.2.1 hrest
    rw [show s.run (op :: l) = (s.step op).run l from rfl]
    exact ⟨hrec.1, hrec.2.1, hrec.2.2.trans hstep.2.2.2⟩

theorem pyInt_nonneg (q : ℚ) (h : 0 ≤ q) : 0 ≤ pyInt q := by
  rw [pyInt, if_pos h]
  exact Int.floor_nonneg.mpr h

theorem lb_leak_inv (s : LeakyBucketStrategy) (now : ℚ)
    (hr : 0 ≤ s.rate) (h0 : 0 ≤ s.queue_size) (hc : s.queue_size ≤ s.capacity)
    (ht : s.last_leak ≤ now) :
    0 ≤ (s.leak now).queue_size ∧ (s.leak now).queue_size ≤ s.capacity
      ∧ (s.leak now).rate = s.rate ∧ (s.leak now).capacity = s.capacity := by
  have hmul : 0 ≤ (now - s.last_leak) * s.rate :=
    mul_nonneg (by simpa [sub_nonneg] using ht) hr
  have hleaked : 0 ≤ pyInt ((now - s.last_leak) * s.rate) := pyInt_nonneg _ hmul
  rw [LeakyBucketStrategy.leak]
  dsimp only
  split <;>
    exact ⟨le_max_left _ _,
      by rw [max_le_iff]; exact ⟨le_trans h0 hc, by omega⟩, rfl, rfl⟩

theorem lb_step_inv (s : LeakyBucketStrategy) (op : LBOp)
    (hr : 0 ≤ s.rate) (h0 : 0 ≤ s.queue_size) (hc : s.queue_size ≤ s.capacity)
    (ht : s.last_leak ≤ op.now) :
    0 ≤ (s.step op).queue_size ∧ (s.step op).queue_size ≤ (s.step op).capacity
      ∧ (s.step op).rate = s.rate ∧ (s.step op).capacity = s.capacity := by
  have hleak := lb_leak_inv s op.now hr h0 hc ht
  cases op with
  | tryAcq now k =>
    simp only [LBOp.now] at hleak
    rw [LeakyBucketStrategy.step, LeakyBucketStrategy.acquire]
    split
    next hcond =>
      have hk : (0 : ℤ) ≤ (k : ℤ) := Int.ofNat_nonneg k
      have hq := hleak.1
      exact ⟨by dsimp only; omega, by dsimp only; exact hcond, hleak.2.2.1, hleak.2.2.2⟩
    next =>
      exact ⟨hleak.1, by rw [hleak.2.2.2]; exact hleak.2.1, hleak.2.2.1, hleak.2.2.2⟩
  | waitT now =>
    simp only [LBOp.now] at hleak
    rw [LeakyBucketStrategy.step, LeakyBucketStrategy.wait_time]
    split <;>
      exact ⟨hleak.1, by rw [hleak.2.2.2]; exact hleak.2.1, hleak.2.2.1, hleak.2.2.2⟩

theorem lb_run_inv (rate : ℚ) (capacity : ℤ) (t0 : ℚ) (l : List LBOp)
    (hr : 0 ≤ rate) (hc : 0 ≤ capacity)
    (ht : (LeakyBucketStrategy.mk' rate capacity t0).timesOk l) :
    0 ≤ ((LeakyBucketStrategy.mk' rate capacity t0).run l).queue_size
      ∧ ((LeakyBucketStrategy.mk' rate capacity t0).run l).queue_size ≤ capacity := by
  suffices h : ∀ (l : List LBOp) (s : LeakyBucketStrategy),
      0 ≤ s.rate → 0 ≤ s.queue_size → s.queue_size ≤ s.capacity → s.timesOk l →
      0 ≤ (s.run l).queue_size ∧ (s.run l).queue_size ≤ (s.run l).capacity
        ∧ (s.run l).capacity = s.capacity by
    have hx := h l (LeakyBucketStrategy.mk' rate capacity t0) hr
      (by simp [LeakyBucketStrategy.mk'])
      (by simp [LeakyBucketStrategy.mk']; exact hc)
      ht
    refine ⟨hx.1, ?_⟩
    have h2 := hx.2.1
    rw [hx.2.2] at h2
    exact h2
  intro l
  induction l with
  | nil => intro s _ h2 h3 _; exact ⟨h2, h3, rfl⟩
  | cons op l ih =>
    intro s h1 h2 h3 hok
    obtain ⟨htime, hrest⟩ := hok
    have hstep := lb_step_inv s op h1 h2 h3 htime
    have hrec := ih (s.step op) (by rw [hstep.2.2.1]; exact h1) hstep.1
      hstep.2.1 hrest
    rw [show s.run (op :: l) = (s.step op).run l from rfl]
    exact ⟨hrec.1, hrec.2.1, hrec.2.2.trans hstep.2.2.2⟩

theorem ad_step_inv (s : AdaptiveStrategy) (op : ADOp)
    (hr : 0 ≤ s.current_rate) (hmn : 0 ≤ s.min_rate) (hmx : 0 ≤ s.max_rate)
    (h0 : 0 ≤ s.tokens) (h1 : s.tokens ≤ 1)
    (ht : match op with
      | .tryAcq t _ => s.last_update ≤ t
      | .waitT t => s.last_update ≤ t
      | _ => True)
    (hf : op.falsyRetryAfter) :
    0 ≤ (s.step op).tokens ∧ (s.step op).tokens ≤ 1
      ∧ 0 ≤ (s.step op).current_rate
      ∧ (s.step op).min_rate = s.min_rate ∧ (s.step op).max_rate = s.max_rate := by
  cases op with
  | tryAcq now k =>
    have htl : s.last_update ≤ now := ht
    have hmul : 0 ≤ (now - s.last_update) * s.current_rate :=
      mul_nonneg (by linarith) hr
    have hre0 : 0 ≤ (s.refill now).tokens := by
      rw [AdaptiveStrategy.refill]
      exact le_min (by norm_num) (by linarith)
    have hre1 : (s.refill now).tokens ≤ 1 := by
      rw [AdaptiveStrategy.refill]
      exact min_le_left _ _
    rw [AdaptiveStrategy.step, AdaptiveStrategy.acquire]
    split
    next hcond =>
      have hk : (0 : ℚ) ≤ (k : ℚ) := Nat.cast_nonneg k
      exact ⟨by dsimp only; linarith, by dsimp only; linarith, hr, rfl, rfl⟩
    next => exact ⟨hre0, hre1, hr, rfl, rfl⟩
  | waitT now =>
    have htl : s.last_update ≤ now := ht
    have hmul : 0 ≤ (now - s.last_update) * s.current_rate :=
      mul_nonneg (by linarith) hr
    have hre0 : 0 ≤ (s.refill now).tokens := by
      rw [AdaptiveStrategy.refill]
      exact le_min (by norm_num) (by linarith)
    have hre1 : (s.refill now).tokens ≤ 1 := by
      rw [AdaptiveStrategy.refill]
      exact min_le_left _ _
    rw [AdaptiveStrategy.step, AdaptiveStrategy.wait_time]
    split <;> exact ⟨hre0, hre1, hr, rfl, rfl⟩
  | onSucc =>
    rw [AdaptiveStrategy.step, AdaptiveStrategy.on_success]
    split
    · exact ⟨h0, h1, le_min hmx (mul_nonneg hr (by norm_num)), rfl, rfl⟩
    · exact ⟨h0, h1, hr, rfl, rfl⟩
  | onLimit now ra =>
    have hrate : 0 ≤ max s.min_rate (s.current_rate * (1 / 2)) :=
      le_trans hmn (le_max_left _ _)
    simp only [ADOp.falsyRetryAfter] at hf
    cases ra with
    | none =>
      simp only [AdaptiveStrategy.step, AdaptiveStrategy.on_rate_limit]
      exact ⟨h0, h1, hrate, by trivial, by trivial⟩
    | some x =>
      rcases hf with hx | hx
      · exact absurd hx (by simp)
      · have hx0 : x = 0 := by simpa using hx
        simp only [AdaptiveStrategy.step, AdaptiveStrategy.on_rate_limit, hx0, if_pos]
        exact ⟨h0, h1, hrate, by trivial, by trivial⟩

theorem ad_run_inv (ir mnr mxr t0 : ℚ) (l : List ADOp)
    (hir : 0 ≤ ir) (hmn : 0 ≤ mnr) (hmx : 0 ≤ mxr)
    (ht : (AdaptiveStrategy.mk' ir mnr mxr t0).timesOk l)
    (hf : ∀ op ∈ l, op.falsyRetryAfter) :
    0 ≤ ((AdaptiveStrategy.mk' ir mnr mxr t0).run l).tokens
      ∧ ((AdaptiveStrategy.mk' ir mnr mxr t0).run l).tokens ≤ 1 := by
  suffices h : ∀ (l : List ADOp) (s : AdaptiveStrategy),
      0 ≤ s.current_rate → 0 ≤ s.min_rate → 0 ≤ s.max_rate →
      0 ≤ s.tokens → s.tokens ≤ 1 → s.timesOk l → (∀ op ∈ l, op.falsyRetryAfter) →
      0 ≤ (s.run l).tokens ∧ (s.run l).tokens ≤ 1 by
    exact h l (AdaptiveStrategy.mk' ir mnr mxr t0) hir hmn hmx
      (by simp [AdaptiveStrategy.mk']) (by simp [AdaptiveStrategy.mk']) ht hf
  intro l
  induction l with
  | nil => intro s _ _ _ h4 h5 _ _; exact ⟨h4, h5⟩
  | cons op l ih =>
    intro s h1 h2 h3 h4 h5 hok hfl
    obtain ⟨htime, hrest⟩ := hok
    have hstep := ad_step_inv s op h1 h2 h3 h4 h5 htime
      (hfl op (List.mem_cons_self op l))
    have hrec := ih (s.step op) hstep.2.2.1
      (by rw [hstep.2.2.2.1]; exact h2) (by rw [hstep.2.2.2.2]; exact h3)
      hstep.1 hstep.2.1 hrest
      (fun o ho => hfl o (List.mem_cons_of_mem op ho))
    rw [show s.run (op :: l) = (s.step op).run l from rfl]
    exact hrec

/-! ## Lemmas: idempotence of the time-based refill and decay -/

theorem dropWhile_idem {α : Type} (p : α → Bool) (l : List α) :
    (l.dropWhile p).dropWhile p = l.dropWhile p := by
  induction l with
  | nil => rfl
  | cons a l ih =>
    by_cases h : p a = true
    · rw [List.dropWhile_cons_of_pos h]
      exact ih
    · rw [List.dropWhile_cons_of_neg (by simpa using h),
        List.dropWhile_cons_of_neg (by simpa using h)]

theorem fw_cleanup_idem (s : FixedWindowStrategy) (now : ℚ) :
    (s.cleanup now).cleanup now = s.cleanup now := by
  simp [FixedWindowStrategy.cleanup, dropWhile_idem]

theorem tb_refill_idem (s : TokenBucketStrategy) (now : ℚ) :
    (s.refill now).refill now = s.refill now := by
  simp only [TokenBucketStrategy.refill, sub_self, zero_mul, add_zero]
  rw [← min_assoc, min_self]

theorem ad_refill_idem (s : AdaptiveStrategy) (now : ℚ) :
    (s.refill now).refill now = s.refill now := by
  simp only [AdaptiveStrategy.refill, sub_self, zero_mul, add_zero]
  rw [← min_assoc, min_self]

theorem pyInt_zero : pyInt 0 = 0 := by
  rw [pyInt, if_pos le_rfl]
  simp

theorem lb_leak_idem (s : LeakyBucketStrategy) (now : ℚ)
    (hr : 0 ≤ s.rate) (ht : s.last_leak ≤ now) :
    (s.leak now).leak now = s.leak now := by
  have hmul : 0 ≤ (now - s.last_leak) * s.rate :=
    mul_nonneg (by linarith) hr
  have hl0 : 0 ≤ pyInt ((now - s.last_leak) * s.rate) := pyInt_nonneg _ hmul
  by_cases hpos : 0 < pyInt ((now - s.last_leak) * s.rate)
  · have h1 : s.leak now =
        { s with
            queue_size := max 0 (s.queue_size - pyInt ((now - s.last_leak) * s.rate)),
            last_leak := now } := by
      rw [LeakyBucketStrategy.leak]
      dsimp only
      rw [if_pos hpos]
    rw [h1, LeakyBucketStrategy.leak]
    dsimp only
    rw [sub_self, zero_mul, pyInt_zero, if_neg (by omega)]
    have hq : max (0 : ℤ)
        (max 0 (s.queue_size - pyInt ((now - s.last_leak) * s.rate)) - 0)
        = max 0 (s.queue_size - pyInt ((now - s.last_leak) * s.rate)) := by
      omega
    rw [hq]
  · have hz : pyInt ((now - s.last_leak) * s.rate) = 0 := by omega
    have h1 : s.leak now = { s with queue_size := max 0 s.queue_size } := by
      rw [LeakyBucketStrategy.leak]
      dsimp only
      rw [if_neg hpos, hz, sub_zero]
    rw [h1, LeakyBucketStrategy.leak]
    dsimp only
    rw [hz, if_neg (show ¬(0 : ℤ) < 0 by omega)]
    have hq : max (0 : ℤ) (max 0 s.queue_size - 0) = max 0 s.queue_size := by omega
    rw [hq]

/-! ## Claim C4 -/

/-- C4 counterexample: the claim says the available quantity of every strategy
stays within `[0, capacity]` under every operation sequence.  For the adaptive
strategy (rates 1/1/2, constructed at time 0), calling `on_rate_limit` with
`retry_after = 10` at time 0 sets `last_update` to the future instant 10; the
next `try_acquire` at wall time 1 then computes a negative elapsed time and
drives `tokens` to `-9 < 0`. -/
theorem claim_C4_counterexample :
    ((AdaptiveStrategy.mk' 1 1 2 0).run
        [ADOp.onLimit 0 (some 10), ADOp.tryAcq 1 1]).tokens = -9
      ∧ ¬(0 ≤ ((AdaptiveStrategy.mk' 1 1 2 0).run
          [ADOp.onLimit 0 (some 10), ADOp.tryAcq 1 1]).tokens) := by
  have h : ((AdaptiveStrategy.mk' 1 1 2 0).run
      [ADOp.onLimit 0 (some 10), ADOp.tryAcq 1 1]).tokens = -9 := by
    norm_num [AdaptiveStrategy.run, AdaptiveStrategy.step, AdaptiveStrategy.mk',
      AdaptiveStrategy.on_rate_limit, AdaptiveStrategy.acquire, AdaptiveStrategy.refill,
      List.foldl]
  refine ⟨h, ?_⟩
  rw [h]
  norm_num

/-- C4 amended: for Fixed Window, Token Bucket and Leaky Bucket (the latter
two under non-negative construction parameters and a non-decreasing wall
clock), and for Adaptive additionally provided `on_rate_limit` is only ever
invoked with a falsy `retry_after` (`None` or `0.0`), the available quantity
stays within `[0, capacity]` across every operation sequence; and the
time-based refill/decay of each strategy is idempotent at a fixed instant
(Leaky Bucket under monotone time).  With a truthy `retry_after` the adaptive
refill can drive `tokens` below 0 (see the counterexample). -/
theorem claim_C4_amended
    (m : Nat) (w : ℚ) (fl : List FWOp)
    (tr : ℚ) (tc : ℤ) (tt0 : ℚ) (tl : List TBOp)
    (htr : 0 ≤ tr) (htc : 0 ≤ tc)
    (htt : (TokenBucketStrategy.mk' tr tc tt0).timesOk tl)
    (lr : ℚ) (lc : ℤ) (lt0 : ℚ) (ll : List LBOp)
    (hlr : 0 ≤ lr) (hlc : 0 ≤ lc)
    (hlt : (LeakyBucketStrategy.mk' lr lc lt0).timesOk ll)
    (ir mnr mxr at0 : ℚ) (al : List ADOp)
    (hir : 0 ≤ ir) (hmnr : 0 ≤ mnr) (hmxr : 0 ≤ mxr)
    (hat : (AdaptiveStrategy.mk' ir mnr mxr at0).timesOk al)
    (hfalsy : ∀ op ∈ al, op.falsyRetryAfter)
    (fw : FixedWindowStrategy) (tb : TokenBucketStrategy) (lb : LeakyBucketStrategy)
    (ad : AdaptiveStrategy) (now : ℚ)
    (hlbr : 0 ≤ lb.rate) (hlbt : lb.last_leak ≤ now) :
    ((FixedWindowStrategy.mk' m w).run fl).requests.length ≤ m
      ∧ (0 ≤ ((TokenBucketStrategy.mk' tr tc tt0).run tl).tokens
          ∧ ((TokenBucketStrategy.mk' tr tc tt0).run tl).tokens ≤ (tc : ℚ))
      ∧ (0 ≤ ((LeakyBucketStrategy.mk' lr lc lt0).run ll).queue_size
          ∧ ((LeakyBucketStrategy.mk' lr lc lt0).run ll).queue_size ≤ lc)
      ∧ (0 ≤ ((AdaptiveStrategy.mk' ir mnr mxr at0).run al).tokens
          ∧ ((AdaptiveStrategy.mk' ir mnr mxr at0).run al).tokens ≤ 1)
      ∧ (fw.cleanup now).cleanup now = fw.cleanup now
      ∧ (tb.refill now).refill now = tb.refill now
      ∧ (ad.refill now).refill now = ad.refill now
      ∧ (lb.leak now).leak now = lb.leak now :=
  ⟨fw_run_inv m w fl,
   tb_run_inv tr tc tt0 tl htr htc htt,
   lb_run_inv lr lc lt0 ll hlr hlc hlt,
   ad_run_inv ir mnr mxr at0 al hir hmnr hmxr hat hfalsy,
   fw_cleanup_idem fw now,
   tb_refill_idem tb now,
   ad_refill_idem ad now,
   lb_leak_idem lb now hlbr hlbt⟩

/-- C4 witness. -/
theorem claim_C4_witness :
    ((TokenBucketStrategy.mk' 1 2 0).run [TBOp.tryAcq 1 1]).tokens ≤ ((2 : ℤ) : ℚ) :=
  (claim_C4_amended 1 1 [] 1 2 0 [TBOp.tryAcq 1 1] (by norm_num) (by norm_num)
    (by constructor
        · show (0 : ℚ) ≤ 1
          norm_num
        · trivial)
    1 1 0 [] (by norm_num) (by norm_num) trivial
    1 1 2 0 [] (by norm_num) (by norm_num) (by norm_num) trivial (by simp)
    (FixedWindowStrategy.mk' 1 1) (TokenBucketStrategy.mk' 1 2 0)
    (LeakyBucketStrategy.mk' 1 1 0) (AdaptiveStrategy.mk' 1 1 2 0) 0
    (by simp [LeakyBucketStrategy.mk']) (by simp [LeakyBucketStrategy.mk'])).2.1.2

end CteraSDK
